import Mathlib

/-!
Verification development for the `chart_app` repository.

The two extractable components are embedded shallowly, translated from the
Python source:

* the query-shape classifier `analyze_sql_query` together with its
  normalizer `refine_sql_query` (src/chart_app/chartapi.py), and
* the field-name sanitizers: `sanitize_fieldname` (src/chart_app/json_data.py)
  and the sanitize-and-uniquify loop of `create_dynamic_doctype`
  (src/chart_app/utils.py).

Strings are modelled as `List Char`; characters are handled at the ASCII
fragment (Python's default regex classes and `str.lower` are Unicode-aware,
but every pattern, keyword and reserved word in this code base is ASCII, so
the ASCII fragment is the behaviourally relevant one and is what is embedded).
Python functions that can raise are modelled with `Option`: `none` models a
raised exception.
-/

set_option maxHeartbeats 1000000

/-- ASCII lower-casing, the fragment of Python `str.lower` used by the code. -/
def lowerA (c : Char) : Char :=
  if 65 ≤ c.toNat ∧ c.toNat ≤ 90 then Char.ofNat (c.toNat + 32) else c

/-- ASCII upper-casing (used to model `re.sub` keyword re-casing). -/
def upperA (c : Char) : Char :=
  if 97 ≤ c.toNat ∧ c.toNat ≤ 122 then Char.ofNat (c.toNat - 32) else c

/-- ASCII word character, the fragment of Python regex `\w` / `\W`. -/
def isWordCh (c : Char) : Bool :=
  (97 ≤ c.toNat ∧ c.toNat ≤ 122) ∨ (65 ≤ c.toNat ∧ c.toNat ≤ 90) ∨
  (48 ≤ c.toNat ∧ c.toNat ≤ 57) ∨ c = '_'

/-- ASCII whitespace, the fragment of Python regex `\s` / `str.split()`. -/
def isWsCh (c : Char) : Bool :=
  c = ' ' ∨ c = '\t' ∨ c = '\n' ∨ c = '\x0d' ∨ c = '\x0b' ∨ c = '\x0c'

/-- ASCII decimal digit, fragment of Python `str.isdigit`. -/
def isDigitCh (c : Char) : Bool :=
  48 ≤ c.toNat ∧ c.toNat ≤ 57

def lowerL (s : List Char) : List Char := s.map lowerA

theorem char_toNat_ofNat (n : Nat) (h : n < 55296) : (Char.ofNat n).toNat = n := by
  unfold Char.ofNat
  split
  · rfl
  · rename_i hv; exact absurd (Or.inl h) hv

theorem char_eq_of_toNat_eq {a b : Char} (h : a.toNat = b.toNat) : a = b :=
  Char.eq_of_val_eq (UInt32.ext h)

theorem lowerA_toNat_of_upper (c : Char) (h : 65 ≤ c.toNat ∧ c.toNat ≤ 90) :
    (lowerA c).toNat = c.toNat + 32 := by
  unfold lowerA
  rw [if_pos h]
  exact char_toNat_ofNat _ (by omega)

theorem upperA_toNat_of_lower (c : Char) (h : 97 ≤ c.toNat ∧ c.toNat ≤ 122) :
    (upperA c).toNat = c.toNat - 32 := by
  unfold upperA
  rw [if_pos h]
  exact char_toNat_ofNat _ (by omega)

theorem upperA_eq_self_of_not_lower (c : Char) (h : ¬ (97 ≤ c.toNat ∧ c.toNat ≤ 122)) :
    upperA c = c := by
  unfold upperA; rw [if_neg h]

theorem lowerA_eq_self_of_not_upper (c : Char) (h : ¬ (65 ≤ c.toNat ∧ c.toNat ≤ 90)) :
    lowerA c = c := by
  unfold lowerA; rw [if_neg h]

theorem lowerA_toNat_range (c : Char) (h : 65 ≤ c.toNat ∧ c.toNat ≤ 90) :
    97 ≤ (lowerA c).toNat ∧ (lowerA c).toNat ≤ 122 := by
  rw [lowerA_toNat_of_upper c h]; omega

theorem upperA_toNat_range (c : Char) (h : 97 ≤ c.toNat ∧ c.toNat ≤ 122) :
    65 ≤ (upperA c).toNat ∧ (upperA c).toNat ≤ 90 := by
  rw [upperA_toNat_of_lower c h]; omega

theorem lowerA_upperA (c : Char) : lowerA (upperA c) = lowerA c := by
  by_cases h : 97 ≤ c.toNat ∧ c.toNat ≤ 122
  · have hu := upperA_toNat_of_lower c h
    have h2 : 65 ≤ (upperA c).toNat ∧ (upperA c).toNat ≤ 90 := by omega
    have h3 : ¬ (65 ≤ c.toNat ∧ c.toNat ≤ 90) := by omega
    apply char_eq_of_toNat_eq
    rw [lowerA_toNat_of_upper _ h2, lowerA_eq_self_of_not_upper c h3]
    omega
  · rw [upperA_eq_self_of_not_lower c h]

theorem upperA_upperA (c : Char) : upperA (upperA c) = upperA c := by
  by_cases h : 97 ≤ c.toNat ∧ c.toNat ≤ 122
  · have hu := upperA_toNat_of_lower c h
    have h2 : ¬ (97 ≤ (upperA c).toNat ∧ (upperA c).toNat ≤ 122) := by omega
    rw [upperA_eq_self_of_not_lower (upperA c) h2]
  · simp only [upperA_eq_self_of_not_lower c h]

/-- `upperA` fixes and reflects every character whose code is below 65
(punctuation, digits, whitespace). -/
theorem upperA_eq_iff_small (c d : Char) (hd : d.toNat < 65) : upperA c = d ↔ c = d := by
  constructor
  · intro he
    by_cases h : 97 ≤ c.toNat ∧ c.toNat ≤ 122
    · have hu := upperA_toNat_of_lower c h
      have := congrArg Char.toNat he
      omega
    · rwa [upperA_eq_self_of_not_lower c h] at he
  · intro he
    subst he
    exact upperA_eq_self_of_not_lower c (by omega)

/-- `lowerA` fixes and reflects every character whose code is below 65. -/
theorem lowerA_eq_iff_small (c d : Char) (hd : d.toNat < 65) : lowerA c = d ↔ c = d := by
  constructor
  · intro he
    by_cases h : 65 ≤ c.toNat ∧ c.toNat ≤ 90
    · have hu := lowerA_toNat_of_upper c h
      have := congrArg Char.toNat he
      omega
    · rwa [lowerA_eq_self_of_not_upper c h] at he
  · intro he
    subst he
    exact lowerA_eq_self_of_not_upper c (by omega)

theorem isWsCh_false_of_ge65 (c : Char) (h : 65 ≤ c.toNat) : isWsCh c = false := by
  unfold isWsCh
  apply decide_eq_false
  rintro (he | he | he | he | he | he) <;> subst he <;> exact absurd h (by decide)

theorem isWs_upperA (c : Char) : isWsCh (upperA c) = isWsCh c := by
  by_cases h : 97 ≤ c.toNat ∧ c.toNat ≤ 122
  · have h2 := upperA_toNat_range c h
    rw [isWsCh_false_of_ge65 (upperA c) (by omega), isWsCh_false_of_ge65 c (by omega)]
  · rw [upperA_eq_self_of_not_lower c h]

theorem isWs_lowerA (c : Char) : isWsCh (lowerA c) = isWsCh c := by
  by_cases h : 65 ≤ c.toNat ∧ c.toNat ≤ 90
  · have h2 := lowerA_toNat_range c h
    rw [isWsCh_false_of_ge65 (lowerA c) (by omega), isWsCh_false_of_ge65 c (by omega)]
  · rw [lowerA_eq_self_of_not_upper c h]

theorem isWordCh_lowerA (c : Char) : isWordCh (lowerA c) = isWordCh c := by
  by_cases h : 65 ≤ c.toNat ∧ c.toNat ≤ 90
  · have h2 := lowerA_toNat_range c h
    unfold isWordCh
    rw [decide_eq_true (Or.inl ⟨h2.1, h2.2⟩), decide_eq_true (Or.inr (Or.inl h))]
  · rw [lowerA_eq_self_of_not_upper c h]

theorem isWordCh_upperA (c : Char) : isWordCh (upperA c) = isWordCh c := by
  by_cases h : 97 ≤ c.toNat ∧ c.toNat ≤ 122
  · have h2 := upperA_toNat_range c h
    unfold isWordCh
    rw [decide_eq_true (Or.inr (Or.inl ⟨h2.1, h2.2⟩)), decide_eq_true (Or.inl h)]
  · rw [upperA_eq_self_of_not_lower c h]

theorem lowerA_not_upper_range (c : Char) : ¬ (65 ≤ (lowerA c).toNat ∧ (lowerA c).toNat ≤ 90) := by
  by_cases h : 65 ≤ c.toNat ∧ c.toNat ≤ 90
  · have := lowerA_toNat_of_upper c h; omega
  · rw [lowerA_eq_self_of_not_upper c h]; exact h

theorem lowerA_lowerA (c : Char) : lowerA (lowerA c) = lowerA c :=
  lowerA_eq_self_of_not_upper (lowerA c) (lowerA_not_upper_range c)

theorem lowerL_length (s : List Char) : (lowerL s).length = s.length := by
  simp [lowerL]

theorem lowerL_append (a b : List Char) : lowerL (a ++ b) = lowerL a ++ lowerL b := by
  simp [lowerL]

theorem lowerL_cons (c : Char) (s : List Char) : lowerL (c :: s) = lowerA c :: lowerL s := rfl

theorem lowerL_nil : lowerL [] = [] := rfl

/-- First index of `pat` as a substring (Python `str.find`), else `none`. -/
def findSub (pat : List Char) : List Char → Option Nat
  | [] => if pat = [] then some 0 else none
  | c :: cs => if pat.isPrefixOf (c :: cs) then some 0 else (findSub pat cs).map (· + 1)

/-- Substring test (`pat in s` in Python). -/
def isSubstr (pat : List Char) : List Char → Bool
  | [] => pat.isPrefixOf []
  | c :: cs => pat.isPrefixOf (c :: cs) || isSubstr pat cs

/-- Cut a string after the first `;`, keeping it (models
`sql_query[select_start:query_end]` with `query_end = find(';') + 1`). -/
def semiSlice : List Char → List Char
  | [] => []
  | c :: cs => if c = ';' then [c] else c :: semiSlice cs

/-- One pass of Python `' '.join(s.split())`: runs of whitespace become a
single space, leading/trailing whitespace disappears.  `started` records
whether a word has been emitted, `gap` whether whitespace was seen since. -/
def cgo : List Char → Bool → Bool → List Char
  | [], _, _ => []
  | c :: cs, started, gap =>
    if isWsCh c then cgo cs started true
    else if started && gap then ' ' :: c :: cgo cs true false
    else c :: cgo cs true false

def collapseWs (s : List Char) : List Char := cgo s false false

/-- Does the (lowered) text start with keyword `kw` followed by a word
boundary (`\b` after the keyword)? -/
def kwMatchAt (kw ls : List Char) : Bool :=
  kw.isPrefixOf ls &&
    (match ls.drop kw.length with
     | [] => true
     | d :: _ => !isWordCh d)

/-- Scan of `re.sub(r'\b<kw>\b', KW, s, flags=re.IGNORECASE)` match positions,
computed on the lowered text: a Bool per character, `true` on matched
regions.  `prevW` tracks whether the previous character is a word character
(for the leading `\b`); scanning resumes after each match, like `re.sub`. -/
def maskGo (kw : List Char) : Nat → Bool → List Char → List Bool
  | 0, _, ls => List.replicate ls.length false
  | _ + 1, _, [] => []
  | fuel + 1, prevW, c :: cs =>
    if !prevW && kwMatchAt kw (c :: cs) then
      List.replicate kw.length true ++
        maskGo kw fuel (isWordCh (kw.getLastD ' ')) ((c :: cs).drop kw.length)
    else false :: maskGo kw fuel (isWordCh c) cs

/-- Upper-case the characters selected by the mask, leave the rest alone. -/
def applyMask : List Bool → List Char → List Char
  | _, [] => []
  | [], s => s
  | b :: m, c :: cs => (if b then upperA c else c) :: applyMask m cs

/-- One keyword re-casing pass.  In the source this is
`re.sub(r'\b' + kw + r'\b', KW, q, flags=re.IGNORECASE)` where `KW` is the
upper-case keyword; a matched region is case-insensitively equal to `kw`,
so substituting `KW` upper-cases the matched region in place, which is how
it is embedded: match positions are found on the lowered text and those
positions are upper-cased. -/
def recase1 (kw : List Char) (s : List Char) : List Char :=
  applyMask (maskGo kw (s.length + 1) false (lowerL s)) s

/-- The keyword list of `refine_sql_query`, in source order, lowered. -/
def sqlKeywords : List (List Char) :=
  ["select".toList, "from".toList, "where".toList, "group by".toList,
   "order by".toList, "having".toList, "join".toList, "left join".toList,
   "right join".toList, "inner join".toList, "outer join".toList,
   "on".toList, "and".toList, "or".toList, "as".toList]

def recaseKeywords (s : List Char) : List (List Char) → List Char
  | [] => s
  | kw :: rest => recaseKeywords (recase1 kw s) rest

/-- Embedding of `refine_sql_query` (src/chart_app/chartapi.py lines 82-102):
find the first case-insensitive `select`; if absent return the input
unchanged; otherwise cut from there to just after the first `;` (or the
end), collapse whitespace runs to single spaces, and re-case the SQL
keywords to upper case. -/
def refineL (s : List Char) : List Char :=
  match findSub ("select".toList) (lowerL s) with
  | none => s
  | some i => recaseKeywords (collapseWs (semiSlice (s.drop i))) sqlKeywords

def refine_sql_query (s : String) : String := String.mk (refineL s.toList)

/-- The aggregation words of `re.findall(r'(sum|avg|count|max|min)\s*\(', ...)`,
in alternation order. -/
def aggWords : List (List Char) :=
  ["sum".toList, "avg".toList, "count".toList, "max".toList, "min".toList]

/-- After an aggregation word: `\s*\(` — skip a whitespace run, require `(`;
returns the remainder after `(`. -/
def parenAfterWs (rest : List Char) : Option (List Char) :=
  match rest.dropWhile isWsCh with
  | c :: rr => if c = '(' then some rr else none
  | [] => none

/-- Try one alternation branch `w\s*\(` at the current position
(case-insensitively); on success returns the matched word in its original
case (the regex group) and the remainder after the full match. -/
def tryAggWord (s : List Char) (w : List Char) : Option (List Char × List Char) :=
  if w.isPrefixOf (lowerL s) then
    match parenAfterWs (s.drop w.length) with
    | some rr => some (s.take w.length, rr)
    | none => none
  else none

/-- Embedding of `re.findall(r'(sum|avg|count|max|min)\s*\(', q, re.IGNORECASE)`
(chartapi.py line 133): left-to-right non-overlapping scan, resuming after
each full match; yields the group texts in original case. -/
def aggGo : Nat → List Char → List (List Char)
  | 0, _ => []
  | _ + 1, [] => []
  | fuel + 1, c :: cs =>
    match aggWords.findSome? (tryAggWord (c :: cs)) with
    | some (w, rest) => w :: aggGo fuel rest
    | none => aggGo fuel cs

def aggScan (s : List Char) : List (List Char) := aggGo (s.length + 1) s

/-- The time words of `re.findall(r'\b(date|time|year|month|day)\b', q)`
(chartapi.py line 137).  Note: this `findall` has no `re.IGNORECASE` flag,
so the match is case-sensitive. -/
def timeWords : List (List Char) :=
  ["date".toList, "time".toList, "year".toList, "month".toList, "day".toList]

def tryTimeWord (prevW : Bool) (s : List Char) (w : List Char) :
    Option (List Char × List Char) :=
  if !prevW && kwMatchAt w s then some (w, s.drop w.length) else none

/-- Embedding of the (case-sensitive) time-column `findall`. -/
def timeGo : Nat → Bool → List Char → List (List Char)
  | 0, _, _ => []
  | _ + 1, _, [] => []
  | fuel + 1, prevW, c :: cs =>
    match timeWords.findSome? (tryTimeWord prevW (c :: cs)) with
    | some (w, rest) => w :: timeGo fuel (isWordCh (w.getLastD ' ')) rest
    | none => timeGo fuel (isWordCh c) cs

def timeScan (s : List Char) : List (List Char) := timeGo (s.length + 1) false s

/-- `\s+pat` (with `pat` matched case-insensitively): require at least one
whitespace character, skip the whole run, then match `pat`; returns the
remainder.  On whitespace-collapsed text (the only text these searches see
when their result is used) a run has length one, so the greedy run needs no
backtracking. -/
def wsRunThen (pat : List Char) (s : List Char) : Option (List Char) :=
  match s with
  | c :: cs =>
    if isWsCh c then
      if pat.isPrefixOf (lowerL ((c :: cs).dropWhile isWsCh)) then
        some (((c :: cs).dropWhile isWsCh).drop pat.length)
      else none
    else none
  | [] => none

/-- Generic leftmost search: try `test` at every position, tracking whether
the previous character is a word character (for leading `\b`). -/
def scanFirst {α : Type} (test : Bool → List Char → Option α) : Bool → List Char → Option α
  | _, [] => none
  | prevW, c :: cs =>
    match test prevW (c :: cs) with
    | some r => some r
    | none => scanFirst test (isWordCh c) cs

/-- Match of `\border\s+by\b` at the current position. -/
def orderByHere (prevW : Bool) (s : List Char) : Option Unit :=
  if !prevW && "order".toList.isPrefixOf (lowerL s) then
    match wsRunThen "by".toList (s.drop 5) with
    | some rest =>
      (match rest with
       | [] => some ()
       | d :: _ => if isWordCh d then none else some ())
    | none => none
  else none

/-- `re.search(r'\border\s+by\b', q, re.IGNORECASE) is not None` (line 135). -/
def hasOrderBy (s : List Char) : Bool := (scanFirst orderByHere false s).isSome

/-- Match of `\blimit\b` at the current position. -/
def limitHere (prevW : Bool) (s : List Char) : Option Unit :=
  if !prevW && "limit".toList.isPrefixOf (lowerL s) then
    match s.drop 5 with
    | [] => some ()
    | d :: _ => if isWordCh d then none else some ()
  else none

/-- `re.search(r'\blimit\b', q, re.IGNORECASE) is not None` (line 136). -/
def hasLimit (s : List Char) : Bool := (scanFirst limitHere false s).isSome

/-- Match of `\bas\s+(\w+)` at the current position: returns the greedy
word-run group. -/
def asHere (prevW : Bool) (s : List Char) : Option (List Char) :=
  if !prevW && "as".toList.isPrefixOf (lowerL s) then
    match s.drop 2 with
    | c :: cs =>
      if isWsCh c then
        match (c :: cs).dropWhile isWsCh with
        | d :: ds => if isWordCh d then some (d :: ds.takeWhile isWordCh) else none
        | [] => none
      else none
    | [] => none
  else none

/-- `re.search(r'\bas\s+(\w+)', q, re.IGNORECASE)` (line 174): group 1. -/
def searchAs (s : List Char) : Option (List Char) := scanFirst asHere false s

/-- The terminator alternation of the GROUP BY search
`(?:\border\s+by|\blimit\b|;\s*$|\\\s*$|$)`, checked at the position after
the lazy group; `prev` is the last character of the group so far (for the
`\b` of `order`/`limit`). -/
def gbTerm (prev : Char) (rest : List Char) : Bool :=
  (!isWordCh prev && "order".toList.isPrefixOf (lowerL rest) &&
     (wsRunThen "by".toList (rest.drop 5)).isSome) ||
  (!isWordCh prev && "limit".toList.isPrefixOf (lowerL rest) &&
     (match rest.drop 5 with | [] => true | d :: _ => !isWordCh d)) ||
  (match rest with | c :: cs => c = ';' && cs.all isWsCh | [] => false) ||
  (match rest with | c :: cs => c = '\\' && cs.all isWsCh | [] => false) ||
  rest.isEmpty || rest = ['\n']

/-- The lazy group `(.+?)` of the GROUP BY search: grow the group one
character at a time until a terminator matches.  (Because `$` is among the
terminators, the group never runs past the end of the string.) -/
def gbLazy : List Char → Char → List Char → List Char
  | g, _, [] => g
  | g, prev, c :: cs => if gbTerm prev (c :: cs) then g else gbLazy (g ++ [c]) c cs

/-- Match of `\bgroup\s+by\s+(.+?)(?:...)` at the current position
(chartapi.py line 134, `re.IGNORECASE | re.DOTALL`): returns group 1. -/
def gbHere (prevW : Bool) (s : List Char) : Option (List Char) :=
  if !prevW && "group".toList.isPrefixOf (lowerL s) then
    match wsRunThen "by".toList (s.drop 5) with
    | some rest2 =>
      (match rest2 with
       | c :: cs =>
         if isWsCh c then
           match (c :: cs).dropWhile isWsCh with
           | d :: ds => some (gbLazy [d] d ds)
           | [] => none
         else none
       | [] => none)
    | none => none
  else none

def groupSearch (s : List Char) : Option (List Char) := scanFirst gbHere false s

/-- The terminator `\s+from` of the projection search `select\s+(.+?)\s+from`. -/
def selTerm (rest : List Char) : Bool :=
  match rest with
  | c :: cs => isWsCh c && "from".toList.isPrefixOf (lowerL ((c :: cs).dropWhile isWsCh))
  | [] => false

/-- The lazy group `(.+?)` of the projection search. -/
def selLazy : List Char → List Char → Option (List Char)
  | _, [] => none
  | g, c :: cs => if selTerm (c :: cs) then some g else selLazy (g ++ [c]) cs

/-- Match of `select\s+(.+?)\s+from` at the current position (no `\b` in the
source pattern). -/
def selHere (s : List Char) : Option (List Char) :=
  if "select".toList.isPrefixOf (lowerL s) then
    match s.drop 6 with
    | c :: cs =>
      if isWsCh c then
        match (c :: cs).dropWhile isWsCh with
        | d :: ds => if selTerm ds then some [d] else selLazy [d] ds
        | [] => none
      else none
    | [] => none
  else none

def selGo : List Char → Option (List Char)
  | [] => none
  | c :: cs =>
    match selHere (c :: cs) with
    | some g => some g
    | none => selGo cs

/-- `re.search(r'select\s+(.+?)\s+from', q, re.DOTALL | re.IGNORECASE)`
(line 138): group 1, the projection text. -/
def selectSearch (s : List Char) : Option (List Char) := selGo s

/-- The character class `["\w\s/]` of the projection-column `findall`. -/
def isColCh (c : Char) : Bool := c = '"' || isWordCh c || isWsCh c || c = '/'

/-- The terminator alternation `(?:,|\s+as\s+|\s+from\s+)` of the
projection-column `findall`; on success returns the remainder after the
terminator (where the scan resumes). -/
def colTerm (rest : List Char) : Option (List Char) :=
  match rest with
  | c :: cs =>
    if c = ',' then some cs
    else if isWsCh c then
      (if "as".toList.isPrefixOf (lowerL ((c :: cs).dropWhile isWsCh)) then
         (match ((c :: cs).dropWhile isWsCh).drop 2 with
          | d :: ds => if isWsCh d then some ((d :: ds).dropWhile isWsCh) else none
          | [] => none)
       else if "from".toList.isPrefixOf (lowerL ((c :: cs).dropWhile isWsCh)) then
         (match ((c :: cs).dropWhile isWsCh).drop 4 with
          | d :: ds => if isWsCh d then some ((d :: ds).dropWhile isWsCh) else none
          | [] => none)
       else none)
    else none
  | [] => none

/-- The lazy group `(["\w\s/]+?)` of the projection-column `findall`. -/
def colLazy : List Char → List Char → Option (List Char × List Char)
  | _, [] => none
  | g, c :: cs =>
    match colTerm (c :: cs) with
    | some rest => some (g, rest)
    | none => if isColCh c then colLazy (g ++ [c]) cs else none

/-- Embedding of
`re.findall(r'(["\w\s/]+?)(?:,|\s+as\s+|\s+from\s+)', proj, re.IGNORECASE)`
(line 143): the extracted projection-column expressions.  An expression is
captured only when followed by one of the terminators, so a final expression
running to the end of the projection text is not captured. -/
def colGo : Nat → List Char → List (List Char)
  | 0, _ => []
  | _ + 1, [] => []
  | fuel + 1, c :: cs =>
    if isColCh c then
      match colLazy [c] cs with
      | some (g, rest) => g :: colGo fuel rest
      | none => colGo fuel cs
    else colGo fuel cs

def colScan (s : List Char) : List (List Char) := colGo (s.length + 1) s

/-- Python `.strip()` then `.strip('"')`, as applied to each column and to
the GROUP BY group. -/
def stripWsL (s : List Char) : List Char :=
  ((s.dropWhile isWsCh).reverse.dropWhile isWsCh).reverse

def stripQuotes (s : List Char) : List Char :=
  ((s.dropWhile (· = '"')).reverse.dropWhile (· = '"')).reverse

def stripCol (s : List Char) : List Char := stripQuotes (stripWsL s)

/-- Python `', '.join(xs)`. -/
def joinCommaSp : List (List Char) → List Char
  | [] => []
  | [x] => x
  | x :: y :: rest => x ++ ", ".toList ++ joinCommaSp (y :: rest)

/-- The ChartSuggestion dictionary returned by `analyze_sql_query`.
`sql_query = none` models the degenerate result, whose dictionary has no
`sql_query` key. -/
structure ChartSuggestion where
  chart_type : String
  x_axis : String
  y_axis : String
  sql_query : Option String
deriving DecidableEq, Repr

/-- `next((col for col in columns if any(agg in col.lower() for agg in
aggregations)), default)` without its default: the first column whose
lower-casing contains one of the matched aggregation texts. -/
def aggColIn (aggs : List (List Char)) (cols : List (List Char)) : Option (List Char) :=
  cols.find? (fun col => aggs.any (fun a => isSubstr a (lowerL col)))

/-- Lines 173-176: if `y_axis` is falsy, fall back to the first `AS` alias
anywhere in the refined query. -/
def yFallback (f : List Char) (y : List Char) : List Char :=
  if y = [] then
    match searchAs f with
    | some a => a
    | none => y
  else y

/-- Embedding of `analyze_sql_query` (src/chart_app/chartapi.py lines
130-183) on `List Char`.  `none` models a raised `IndexError`: the source
evaluates `columns[0]` (and, in the aggregation-without-GROUP-BY branch,
`columns[-1]`) without guarding against an empty extracted-column list. -/
def analyze_sql_queryL (s : List Char) : Option ChartSuggestion :=
  let f := refineL s
  let aggs := aggScan f
  let gb := groupSearch f
  let ob := hasOrderBy f
  let lim := hasLimit f
  let times := timeScan f
  match selectSearch f with
  | none => some ⟨"table", "", "", none⟩
  | some proj =>
    let cols := (colScan proj).map stripCol
    if aggs.isEmpty then
      match gb with
      | none =>
        match cols with
        | [] => none
        | c0 :: rest =>
          some ⟨"scatter", String.mk c0,
                String.mk (yFallback f (joinCommaSp rest)), some (String.mk f)⟩
      | some _ =>
        match cols with
        | [] => none
        | c0 :: rest =>
          some ⟨"table", String.mk c0,
                String.mk (yFallback f (joinCommaSp rest)), some (String.mk f)⟩
    else
      match gb with
      | some g =>
        let grouped := stripCol g
        let aggcol := (aggColIn aggs cols).getD []
        let ct : String :=
          if ob && lim then "bar"
          else if !times.isEmpty then
            (if aggs.length = 1 then "line" else "multi-series line")
          else
            (if aggs.length = 1 then "bar" else "multi-series bar")
        some ⟨ct, String.mk grouped, String.mk (yFallback f aggcol), some (String.mk f)⟩
      | none =>
        match cols with
        | [] => none
        | c0 :: rest =>
          let aggcol := (aggColIn aggs cols).getD ((c0 :: rest).getLastD c0)
          some ⟨"bar", String.mk c0,
                String.mk (yFallback f aggcol), some (String.mk f)⟩

/-- `analyze_sql_query` on `String`. -/
def analyze_sql_query (s : String) : Option ChartSuggestion :=
  analyze_sql_queryL s.toList

/-- `RESERVED_KEYWORDS` (src/chart_app/json_data.py lines 7-10). -/
def RESERVED_KEYWORDS : List String :=
  ["meta", "doctype", "name", "parent", "owner", "modified", "idx", "creation",
   "modified_by", "parentfield", "parenttype", "docstatus", "naming_series"]

/-- The intermediate value `fieldname.lower().replace(" ", "_")` of
`sanitize_fieldname`. -/
def sanitizedBase (fieldname : String) : String :=
  String.mk ((lowerL fieldname.toList).map (fun c => if c = ' ' then '_' else c))

/-- Embedding of `sanitize_fieldname` (src/chart_app/json_data.py lines
49-58): lower-case, replace spaces with underscores, and append `_field`
when the result is a reserved keyword. -/
def sanitize_fieldname (fieldname : String) : String :=
  if sanitizedBase fieldname ∈ RESERVED_KEYWORDS then sanitizedBase fieldname ++ "_field"
  else sanitizedBase fieldname

/-- `re.sub(r'\W+', '_', s)`: each maximal run of non-word characters
becomes a single underscore.  `inRun` records being inside such a run. -/
def subWGo : List Char → Bool → List Char
  | [], _ => []
  | c :: cs, inRun =>
    if isWordCh c then c :: subWGo cs false
    else if inRun then subWGo cs true
    else '_' :: subWGo cs true

def subW (s : List Char) : List Char := subWGo s false

/-- Python `.strip('_')`. -/
def stripUnd (s : List Char) : List Char :=
  ((s.dropWhile (· = '_')).reverse.dropWhile (· = '_')).reverse

def digitChar (n : Nat) : Char := Char.ofNat (48 + n % 10)

/-- Decimal digits of `n`, most significant first (Python `str(n)` /
f-string formatting of a nonnegative int). -/
def digitsGo : Nat → Nat → List Char
  | 0, _ => []
  | fuel + 1, n => if n < 10 then [digitChar n] else digitsGo fuel (n / 10) ++ [digitChar (n % 10)]

def natChars (n : Nat) : List Char := digitsGo (n + 1) n

/-- One iteration body of the sanitizing loop of `create_dynamic_doctype`
(src/chart_app/utils.py lines 134-147), before uniquification:
truncate to 140 characters, lower-case, collapse non-word runs to `_`,
strip underscores, guard a leading digit with `_`, and fall back to
`field_<n>` (with `n = len(fields)`, the position) when empty. -/
def sanitizeLabel (pos : Nat) (label : List Char) : List Char :=
  let colStr := label.take 140
  let s1 := subW (lowerL colStr)
  let s2 := stripUnd s1
  let s3 :=
    match s2 with
    | c :: _ => if isDigitCh c then '_' :: s2 else s2
    | [] => s2
  if s3 = [] then "field_".toList ++ natChars pos else s3

def candidate (orig : List Char) (k : Nat) : List Char := orig ++ '_' :: natChars k

/-- The `while sanitized_fieldname in used_fieldnames` loop (utils.py lines
150-154), fuelled: try `orig_1`, `orig_2`, ... until one is unused.  A fuel
of `used.length + 1` always suffices (proved below), so the fuel-exhausted
branch is dead code. -/
def uniqGo (orig : List Char) (used : List (List Char)) : Nat → Nat → List Char
  | _, 0 => orig
  | k, fuel + 1 =>
    if candidate orig k ∈ used then uniqGo orig used (k + 1) fuel else candidate orig k

def uniquify (orig : List Char) (used : List (List Char)) : List Char :=
  if orig ∈ used then uniqGo orig used 1 (used.length + 1) else orig

/-- The full sanitizing loop of `create_dynamic_doctype` (utils.py lines
131-162): the list of generated `fieldname`s, with `used` the set of
already-produced names. -/
def fieldnamesGo : List (List Char) → Nat → List (List Char) → List (List Char)
  | [], _, _ => []
  | l :: ls, pos, used =>
    let f := uniquify (sanitizeLabel pos l) used
    f :: fieldnamesGo ls (pos + 1) (f :: used)

def doctypeFieldnames (labels : List String) : List String :=
  (fieldnamesGo (labels.map String.toList) 0 []).map String.mk

/-- Head character class of the identifier regex `[a-z_][a-z0-9_]*`. -/
def isIdentHeadCh (c : Char) : Bool :=
  (97 ≤ c.toNat ∧ c.toNat ≤ 122) ∨ c = '_'

/-- Tail character class of the identifier regex `[a-z_][a-z0-9_]*`. -/
def isIdentTailCh (c : Char) : Bool :=
  (97 ≤ c.toNat ∧ c.toNat ≤ 122) ∨ (48 ≤ c.toNat ∧ c.toNat ≤ 57) ∨ c = '_'

/-- Non-empty match of the identifier regex `[a-z_][a-z0-9_]*`. -/
def identOk : List Char → Bool
  | [] => false
  | c :: cs => isIdentHeadCh c && cs.all isIdentTailCh

/-- Numeric value of a decimal digit character. -/
def chVal (c : Char) : Nat := c.toNat - 48

/-- Numeric value of a digit string (used to prove `natChars` injective). -/
def valL (l : List Char) : Nat := l.foldl (fun a c => 10 * a + chVal c) 0

/-- Shape checker for whitespace-collapsed strings, after a word character:
`afterSp` records that the previous character was the single separator
space.  A collapsed string has no whitespace other than single `' '`
separators between words and none at either end. -/
def spGo : Bool → List Char → Bool
  | afterSp, [] => !afterSp
  | afterSp, c :: cs =>
    if c = ' ' then !afterSp && spGo true cs else !isWsCh c && spGo false cs

/-- A string is in whitespace-collapsed shape (fixed by `collapseWs`). -/
def spOk : List Char → Bool
  | [] => true
  | c :: cs => !isWsCh c && spGo false cs

/-- Union of the re-casing masks of a keyword list, over a fixed lowered
text (`n` is the scan fuel). -/
def bigMask (kws : List (List Char)) (n : Nat) (ls : List Char) : List Bool :=
  match kws with
  | [] => List.replicate ls.length false
  | kw :: rest => List.zipWith (fun a b => a || b) (maskGo kw n false ls) (bigMask rest n ls)

/-! ### Theorems -/

/-- C1 (code_bug evidence): the claim says `classify` never raises, but on
the ordinary single-column query `SELECT name FROM users` the projection
findall captures no column (the single expression has no `,`/` as `/` from `
terminator inside the projection text), `columns` is empty, and
`columns[0]` raises `IndexError`; the embedding returns `none` there. -/
theorem claim_C1_code_eval :
    analyze_sql_query "SELECT name FROM users" = none := by decide

/-- C2 counterexample: on `SELECT name, price FROM products` the returned
`y_axis` is the empty string, not `"price"` as the claim states. -/
theorem claim_C2_counterexample :
    (analyze_sql_query "SELECT name, price FROM products").map ChartSuggestion.y_axis ≠
      some "price" := by decide

/-- C2 amended: `classify("SELECT name, price FROM products")` returns
chart_type `scatter` with x_axis `name` and y_axis `""`: the projection
extractor captures only expressions followed by `,`, ` as ` or ` from `
inside the projection text, so the final projected column (`price`) is
dropped, the captured column list is `["name"]`, and the comma-join of the
captured columns after the first is empty (the `AS`-alias fallback finds
nothing). -/
theorem claim_C2_amended :
    analyze_sql_query "SELECT name, price FROM products" =
      some ⟨"scatter", "name", "", some "SELECT name, price FROM products"⟩ := by decide

/-- C5 counterexample: the time-column `findall` has no `re.IGNORECASE`
flag, so a capitalized `Month` is not detected and the query is classified
`bar`, not `line` as the claim states. -/
theorem claim_C5_counterexample :
    (analyze_sql_query
        "SELECT Month, AVG(price) AS avg_price FROM sales GROUP BY Month").map
      ChartSuggestion.chart_type ≠ some "line" := by decide

/-- C5 amended: time-column detection is case-sensitive (lower-case words
only): with `Month` capitalized the single-aggregation grouped query is
classified `bar`, while the all-lower-case variant is classified `line`. -/
theorem claim_C5_amended :
    (analyze_sql_query
        "SELECT Month, AVG(price) AS avg_price FROM sales GROUP BY Month").map
      ChartSuggestion.chart_type = some "bar" ∧
    (analyze_sql_query
        "SELECT month, AVG(price) AS avg_price FROM sales GROUP BY month").map
      ChartSuggestion.chart_type = some "line" := by decide

/-- C7: whenever the lower-cased, space-to-underscore form of a label is a
reserved framework name, `sanitize_fieldname` appends the fixed suffix
`_field`; in particular `sanitize_fieldname "name" = "name_field"`. -/
theorem claim_C7_thm :
    (∀ s : String, sanitizedBase s ∈ RESERVED_KEYWORDS →
      sanitize_fieldname s = sanitizedBase s ++ "_field") ∧
    sanitize_fieldname "name" = "name_field" := by
  constructor
  · intro s h
    unfold sanitize_fieldname
    rw [if_pos h]
  · decide

theorem claim_C7_witness :
    sanitizedBase "name" ∈ RESERVED_KEYWORDS ∧
    sanitize_fieldname "name" = sanitizedBase "name" ++ "_field" :=
  ⟨by decide, claim_C7_thm.1 "name" (by decide)⟩

/-- C8: whenever the projection search `select\s+(.+?)\s+from` finds nothing
in the refined query (no SELECT...FROM clause), `classify` returns exactly
chart_type `table` with empty `x_axis` and `y_axis` (and no `sql_query`
key). -/
theorem claim_C8_thm (s : String)
    (h : selectSearch (refineL s.toList) = none) :
    analyze_sql_query s = some ⟨"table", "", "", none⟩ := by
  unfold analyze_sql_query analyze_sql_queryL
  simp only [h]

theorem claim_C8_witness :
    selectSearch (refineL ("not a query").toList) = none ∧
    analyze_sql_query "not a query" = some ⟨"table", "", "", none⟩ :=
  ⟨by decide, claim_C8_thm "not a query" (by decide)⟩

/-- C10: when `classify` returns a dictionary, that dictionary carries the
refined query under `sql_query` exactly when the SELECT...FROM search
succeeded; when it failed, the degenerate result is returned and its
`sql_query` key is absent (modelled by `none`) while `chart_type`, `x_axis`,
`y_axis` are present. -/
theorem claim_C10_thm (s : String) (r : ChartSuggestion)
    (h : analyze_sql_query s = some r) :
    (selectSearch (refineL s.toList) = none → r = ⟨"table", "", "", none⟩) ∧
    (∀ proj, selectSearch (refineL s.toList) = some proj →
      r.sql_query = some (refine_sql_query s)) := by
  unfold analyze_sql_query analyze_sql_queryL at h
  cases hsel : selectSearch (refineL s.toList) with
  | none =>
    simp only [hsel] at h
    refine ⟨fun _ => ?_, fun proj hp => ?_⟩
    · exact (Option.some_inj.mp h).symm
    · exact Option.noConfusion hp
  | some proj =>
    simp only [hsel] at h
    constructor
    · intro hn; exact Option.noConfusion hn
    · intro proj2 _
      split at h
      · split at h
        · split at h
          · cases h
          · obtain rfl := Option.some_inj.mp h.symm
            rfl
        · split at h
          · cases h
          · obtain rfl := Option.some_inj.mp h.symm
            rfl
      · split at h
        · obtain rfl := Option.some_inj.mp h.symm
          rfl
        · split at h
          · cases h
          · obtain rfl := Option.some_inj.mp h.symm
            rfl

theorem claim_C10_witness :
    (⟨"scatter", "a", "", some "SELECT a, b FROM t"⟩ : ChartSuggestion).sql_query =
      some (refine_sql_query "SELECT a, b FROM t") :=
  (claim_C10_thm "SELECT a, b FROM t"
    ⟨"scatter", "a", "", some "SELECT a, b FROM t"⟩ (by decide)).2
    ("a, b".toList) (by decide)

theorem findSome?_isSome_of_mem {α β : Type} {f : α → Option β} {l : List α} {x : α}
    (hx : x ∈ l) (hf : (f x).isSome) : (l.findSome? f).isSome := by
  induction l with
  | nil => cases hx
  | cons a as ih =>
    rw [List.findSome?_cons]
    cases hfa : f a with
    | some b => simp
    | none =>
      rcases List.mem_cons.mp hx with rfl | hx2
      · rw [hfa] at hf; simp at hf
      · exact ih hx2

theorem lowerL_drop (s : List Char) (n : Nat) : lowerL (s.drop n) = (lowerL s).drop n := by
  simp [lowerL, List.map_drop]

theorem lowerL_take (s : List Char) (n : Nat) : lowerL (s.take n) = (lowerL s).take n := by
  simp [lowerL, List.map_take]

/-- If the lowered text begins with an aggregation word followed directly
by `(`, then the branch `w\s*\(` fires at this position. -/
theorem tryAggWord_fires (s w : List Char) (h : (w ++ ['(']).isPrefixOf (lowerL s) = true) :
    (tryAggWord s w).isSome := by
  have hp : (w ++ ['(']) <+: lowerL s := List.isPrefixOf_iff_prefix.mp h
  obtain ⟨t, ht⟩ := hp
  have hwpre : w.isPrefixOf (lowerL s) = true :=
    List.isPrefixOf_iff_prefix.mpr ⟨'(' :: t, by rw [← ht]; simp⟩
  unfold tryAggWord
  rw [if_pos hwpre]
  have hd : lowerL (s.drop w.length) = '(' :: t := by
    rw [lowerL_drop, ← ht, List.append_assoc, List.drop_left]
    rfl
  cases hsd : s.drop w.length with
  | nil => rw [hsd, lowerL_nil] at hd; cases hd
  | cons c cs =>
    rw [hsd, lowerL_cons] at hd
    have hc : c = '(' := (lowerA_eq_iff_small c '(' (by decide)).mp (List.cons.injEq .. ▸ hd).1
    subst hc
    unfold parenAfterWs
    rw [List.dropWhile_cons, if_neg (by decide)]
    simp

/-- If the lowered remaining text contains `w(` for some aggregation word
`w`, the aggregation scan produces at least one match. -/
theorem aggGo_ne_nil (w : List Char) (hw : w ∈ aggWords) :
    ∀ fuel l, l.length < fuel → isSubstr (w ++ ['(']) (lowerL l) = true →
      aggGo fuel l ≠ [] := by
  intro fuel
  induction fuel with
  | zero => intro l h; omega
  | succ f ih =>
    intro l hlen hsub
    cases l with
    | nil =>
      rw [lowerL_nil] at hsub
      unfold isSubstr at hsub
      cases w <;> simp [List.isPrefixOf] at hsub
    | cons c cs =>
      rw [lowerL_cons] at hsub
      unfold isSubstr at hsub
      simp only [aggGo]
      cases hfs : aggWords.findSome? (tryAggWord (c :: cs)) with
      | some pr => cases pr; simp
      | none =>
        rcases Bool.or_eq_true_iff.mp hsub with hpre | htail
        · have hfires : (tryAggWord (c :: cs) w).isSome :=
            tryAggWord_fires (c :: cs) w (by rw [lowerL_cons]; exact hpre)
          have := findSome?_isSome_of_mem hw hfires
          rw [hfs] at this
          simp at this
        · exact ih cs (by simpa using Nat.lt_of_succ_lt_succ hlen) htail

/-- When the aggregation list is non-empty, no branch of the classifier
chooses `scatter`. -/
theorem chart_not_scatter_of_aggs (s : List Char) (r : ChartSuggestion)
    (h : analyze_sql_queryL s = some r) (ha : aggScan (refineL s) ≠ []) :
    r.chart_type ≠ "scatter" := by
  unfold analyze_sql_queryL at h
  cases hsel : selectSearch (refineL s) with
  | none =>
    simp only [hsel] at h
    obtain rfl := Option.some_inj.mp h
    decide
  | some proj =>
    simp only [hsel] at h
    cases haggE : (aggScan (refineL s)).isEmpty with
    | true => exact absurd (List.isEmpty_iff.mp haggE) ha
    | false =>
      simp only [haggE, Bool.false_eq_true, if_false] at h
      cases hgb : groupSearch (refineL s) with
      | some g =>
        simp only [hgb] at h
        obtain rfl := Option.some_inj.mp h.symm
        simp only [ChartSuggestion.chart_type]
        split
        · decide
        · split
          · split <;> decide
          · split <;> decide
      | none =>
        simp only [hgb] at h
        cases hcols : (colScan proj).map stripCol with
        | nil => rw [hcols] at h; cases h
        | cons c0 rest =>
          rw [hcols] at h
          obtain rfl := Option.some_inj.mp h.symm
          show ("bar" : String) ≠ "scatter"
          decide

/-- C9: the aggregation regex has no word boundary before the function
words, so any refined query whose lowered text contains e.g. `checksum(`
(an identifier merely ending in `sum`, applied to arguments) is counted as
containing an aggregation, and the classifier never chooses `scatter` for
such a query. -/
theorem claim_C9_thm (s : String) (w : List Char) (hw : w ∈ aggWords)
    (hsub : isSubstr (w ++ ['(']) (lowerL (refineL s.toList)) = true) :
    aggScan (refineL s.toList) ≠ [] ∧
    ∀ r, analyze_sql_query s = some r → r.chart_type ≠ "scatter" := by
  have hne : aggScan (refineL s.toList) ≠ [] := by
    unfold aggScan
    exact aggGo_ne_nil w hw _ _ (by omega) hsub
  exact ⟨hne, fun r hr => chart_not_scatter_of_aggs _ r hr hne⟩

theorem claim_C9_witness :
    aggScan (refineL ("SELECT checksum(data) AS c, id FROM tbl").toList) ≠ [] ∧
    (⟨"bar", "AS c", "AS c",
       some "SELECT checksum(data) AS c, id FROM tbl"⟩ : ChartSuggestion).chart_type ≠
      "scatter" := by
  have h := claim_C9_thm "SELECT checksum(data) AS c, id FROM tbl" ("sum".toList)
    (by decide) (by decide)
  exact ⟨h.1, h.2 _ (by decide)⟩

/-- C3 counterexample: on
`SELECT SUM(sales) AS total FROM orders GROUP BY region` the returned
`x_axis` is `region`, which does not occur anywhere in the projection text
`SUM(sales) AS total` (the expressions between SELECT and FROM), so a
non-empty `x_axis` need not name a projected column. -/
theorem claim_C3_counterexample :
    (analyze_sql_query "SELECT SUM(sales) AS total FROM orders GROUP BY region").map
      ChartSuggestion.x_axis = some "region" ∧
    selectSearch (refineL ("SELECT SUM(sales) AS total FROM orders GROUP BY region").toList) =
      some ("SUM(sales) AS total".toList) ∧
    isSubstr ("region".toList) ("SUM(sales) AS total".toList) = false := by decide

theorem yFallback_spec (f y : List Char) :
    yFallback f y = y ∨ ∃ a, searchAs f = some a ∧ yFallback f y = a := by
  unfold yFallback
  split
  · cases hsa : searchAs f with
    | some a => exact Or.inr ⟨a, rfl, rfl⟩
    | none => exact Or.inl rfl
  · exact Or.inl rfl

theorem getLastD_mem_cons {α : Type} (c0 : α) (rest : List α) :
    (c0 :: rest).getLastD c0 ∈ c0 :: rest := by
  induction rest generalizing c0 with
  | nil => simp [List.getLastD]
  | cons r rs ih =>
    rw [List.getLastD_cons]
    rcases List.mem_cons.mp (ih r) with he | hm
    · rw [List.getLastD_cons] at he
      rw [List.getLastD_cons, he]
      exact List.mem_cons_of_mem _ (List.mem_cons_self r rs)
    · exact List.mem_cons_of_mem _ (List.mem_cons_of_mem _ hm)

theorem getD_cases {α : Type} (o : Option α) (d : α) :
    (o = none ∧ o.getD d = d) ∨ ∃ x, o = some x ∧ o.getD d = x := by
  cases o
  · exact Or.inl ⟨rfl, rfl⟩
  · exact Or.inr ⟨_, rfl, rfl⟩

/-- C3 amended: whenever `x_axis` is non-empty it is either one of the
extracted (and stripped) projection columns or the stripped GROUP BY clause
text (which need not appear in the projection); whenever `y_axis` is
non-empty it is an extracted projection column, the comma-join of the
extracted columns after the first, or the first `AS` alias found anywhere in
the refined query. -/
theorem claim_C3_amended (s : String) (r : ChartSuggestion)
    (h : analyze_sql_query s = some r) :
    (r.x_axis = "" ∨
     (∃ proj, selectSearch (refineL s.toList) = some proj ∧
        r.x_axis ∈ ((colScan proj).map stripCol).map String.mk) ∨
     (∃ g, groupSearch (refineL s.toList) = some g ∧ r.x_axis = String.mk (stripCol g))) ∧
    (r.y_axis = "" ∨
     (∃ proj, selectSearch (refineL s.toList) = some proj ∧
        (r.y_axis ∈ ((colScan proj).map stripCol).map String.mk ∨
         r.y_axis = String.mk (joinCommaSp (((colScan proj).map stripCol).tail)))) ∨
     (∃ a, searchAs (refineL s.toList) = some a ∧ r.y_axis = String.mk a)) := by
  unfold analyze_sql_query analyze_sql_queryL at h
  cases hsel : selectSearch (refineL s.toList) with
  | none =>
    simp only [hsel] at h
    obtain rfl := Option.some_inj.mp h
    exact ⟨Or.inl rfl, Or.inl rfl⟩
  | some proj =>
    simp only [hsel] at h
    cases haggE : (aggScan (refineL s.toList)).isEmpty with
    | true =>
      simp only [haggE, if_true] at h
      cases hgb : groupSearch (refineL s.toList) with
      | none =>
        simp only [hgb] at h
        cases hcols : (colScan proj).map stripCol with
        | nil => rw [hcols] at h; cases h
        | cons c0 rest =>
          rw [hcols] at h
          obtain rfl := Option.some_inj.mp h.symm
          constructor
          · refine Or.inr (Or.inl ⟨proj, rfl, ?_⟩)
            rw [hcols]
            exact List.mem_map_of_mem _ (List.mem_cons_self c0 rest)
          · rcases yFallback_spec (refineL s.toList) (joinCommaSp rest) with hy | ⟨a, hsa, hy⟩
            · refine Or.inr (Or.inl ⟨proj, rfl, Or.inr ?_⟩)
              show String.mk (yFallback _ _) = _
              rw [hy, hcols]
              rfl
            · exact Or.inr (Or.inr ⟨a, hsa, congrArg String.mk hy⟩)
      | some gval =>
        simp only [hgb] at h
        cases hcols : (colScan proj).map stripCol with
        | nil => rw [hcols] at h; cases h
        | cons c0 rest =>
          rw [hcols] at h
          obtain rfl := Option.some_inj.mp h.symm
          constructor
          · refine Or.inr (Or.inl ⟨proj, rfl, ?_⟩)
            rw [hcols]
            exact List.mem_map_of_mem _ (List.mem_cons_self c0 rest)
          · rcases yFallback_spec (refineL s.toList) (joinCommaSp rest) with hy | ⟨a, hsa, hy⟩
            · refine Or.inr (Or.inl ⟨proj, rfl, Or.inr ?_⟩)
              show String.mk (yFallback _ _) = _
              rw [hy, hcols]
              rfl
            · exact Or.inr (Or.inr ⟨a, hsa, congrArg String.mk hy⟩)
    | false =>
      simp only [haggE, Bool.false_eq_true, if_false] at h
      cases hgb : groupSearch (refineL s.toList) with
      | some g =>
        simp only [hgb] at h
        obtain rfl := Option.some_inj.mp h.symm
        constructor
        · exact Or.inr (Or.inr ⟨g, rfl, rfl⟩)
        · rcases getD_cases
            (aggColIn (aggScan (refineL s.toList)) ((colScan proj).map stripCol)) []
            with ⟨hfind, hgd⟩ | ⟨col, hfind, hgd⟩ <;>
          rcases yFallback_spec (refineL s.toList)
            ((aggColIn (aggScan (refineL s.toList)) ((colScan proj).map stripCol)).getD [])
            with hy | ⟨a, hsa, hy⟩
          · left
            show String.mk (yFallback _ _) = ""
            rw [hy, hgd]
          · exact Or.inr (Or.inr ⟨a, hsa, congrArg String.mk hy⟩)
          · refine Or.inr (Or.inl ⟨proj, rfl, Or.inl ?_⟩)
            show String.mk (yFallback _ _) ∈ _
            rw [hy, hgd]
            exact List.mem_map_of_mem _ (List.mem_of_find?_eq_some hfind)
          · exact Or.inr (Or.inr ⟨a, hsa, congrArg String.mk hy⟩)
      | none =>
        simp only [hgb] at h
        cases hcols : (colScan proj).map stripCol with
        | nil => rw [hcols] at h; cases h
        | cons c0 rest =>
          rw [hcols] at h
          obtain rfl := Option.some_inj.mp h.symm
          constructor
          · refine Or.inr (Or.inl ⟨proj, rfl, ?_⟩)
            rw [hcols]
            exact List.mem_map_of_mem _ (List.mem_cons_self c0 rest)
          · rcases getD_cases (aggColIn (aggScan (refineL s.toList)) (c0 :: rest))
              ((c0 :: rest).getLastD c0)
              with ⟨hfind, hgd⟩ | ⟨col, hfind, hgd⟩ <;>
            rcases yFallback_spec (refineL s.toList)
              ((aggColIn (aggScan (refineL s.toList)) (c0 :: rest)).getD
                ((c0 :: rest).getLastD c0))
              with hy | ⟨a, hsa, hy⟩
            · refine Or.inr (Or.inl ⟨proj, rfl, Or.inl ?_⟩)
              show String.mk (yFallback _ _) ∈ _
              rw [hy, hgd, hcols]
              exact List.mem_map_of_mem _ (getLastD_mem_cons c0 rest)
            · exact Or.inr (Or.inr ⟨a, hsa, congrArg String.mk hy⟩)
            · refine Or.inr (Or.inl ⟨proj, rfl, Or.inl ?_⟩)
              show String.mk (yFallback _ _) ∈ _
              rw [hy, hgd, hcols]
              exact List.mem_map_of_mem _ (List.mem_of_find?_eq_some hfind)
            · exact Or.inr (Or.inr ⟨a, hsa, congrArg String.mk hy⟩)

theorem claim_C3_amended_witness :
    ("a" : String) = "" ∨
    (∃ proj, selectSearch (refineL ("SELECT a, b FROM t").toList) = some proj ∧
       ("a" : String) ∈ ((colScan proj).map stripCol).map String.mk) ∨
    (∃ g, groupSearch (refineL ("SELECT a, b FROM t").toList) = some g ∧
       ("a" : String) = String.mk (stripCol g)) :=
  (claim_C3_amended "SELECT a, b FROM t"
    ⟨"scatter", "a", "", some "SELECT a, b FROM t"⟩ (by decide)).1

theorem subWGo_chars (x : List Char) : ∀ b c, c ∈ subWGo x b →
    (isWordCh c = true ∧ c ∈ x) ∨ c = '_' := by
  induction x with
  | nil => intro b c hc; cases hc
  | cons d ds ih =>
    intro b c hc
    unfold subWGo at hc
    by_cases hw : isWordCh d = true
    · rw [if_pos hw] at hc
      rcases List.mem_cons.mp hc with rfl | hc2
      · exact Or.inl ⟨hw, List.mem_cons_self _ _⟩
      · rcases ih false c hc2 with ⟨h1, h2⟩ | h3
        · exact Or.inl ⟨h1, List.mem_cons_of_mem _ h2⟩
        · exact Or.inr h3
    · rw [if_neg hw] at hc
      by_cases hr : b = true
      · rw [if_pos hr] at hc
        rcases ih true c hc with ⟨h1, h2⟩ | h3
        · exact Or.inl ⟨h1, List.mem_cons_of_mem _ h2⟩
        · exact Or.inr h3
      · rw [if_neg hr] at hc
        rcases List.mem_cons.mp hc with rfl | hc2
        · exact Or.inr rfl
        · rcases ih true c hc2 with ⟨h1, h2⟩ | h3
          · exact Or.inl ⟨h1, List.mem_cons_of_mem _ h2⟩
          · exact Or.inr h3

theorem isIdentTailCh_underscore : isIdentTailCh '_' = true := by decide

theorem isIdentTailCh_of_word_not_upper (c : Char) (hw : isWordCh c = true)
    (hu : ¬ (65 ≤ c.toNat ∧ c.toNat ≤ 90)) : isIdentTailCh c = true := by
  unfold isWordCh at hw
  unfold isIdentTailCh
  rw [decide_eq_true_eq] at hw
  apply decide_eq_true
  rcases hw with h | h | h | h
  · exact Or.inl h
  · exact absurd h hu
  · exact Or.inr (Or.inl h)
  · exact Or.inr (Or.inr h)

theorem subW_lower_chars (x : List Char) (b : Bool) :
    ∀ c ∈ subWGo (lowerL x) b, isIdentTailCh c = true := by
  intro c hc
  rcases subWGo_chars (lowerL x) b c hc with ⟨hw, hmem⟩ | h3
  · obtain ⟨d, _, rfl⟩ := List.mem_map.mp hmem
    exact isIdentTailCh_of_word_not_upper _ hw (lowerA_not_upper_range d)
  · rw [h3]; exact isIdentTailCh_underscore

theorem stripUnd_subset (s : List Char) : ∀ c ∈ stripUnd s, c ∈ s := by
  intro c hc
  unfold stripUnd at hc
  rw [List.mem_reverse] at hc
  have h1 := (List.dropWhile_suffix (fun x => decide (x = '_'))).subset hc
  rw [List.mem_reverse] at h1
  exact (List.dropWhile_suffix (fun x => decide (x = '_'))).subset h1

theorem digitChar_toNat (n : Nat) : (digitChar n).toNat = 48 + n % 10 := by
  unfold digitChar
  exact char_toNat_ofNat _ (by omega)

theorem digitsGo_chars : ∀ fuel n c, c ∈ digitsGo fuel n → isIdentTailCh c = true := by
  intro fuel
  induction fuel with
  | zero => intro n c hc; cases hc
  | succ f ih =>
    intro n c hc
    unfold digitsGo at hc
    split at hc
    · rcases List.mem_cons.mp hc with rfl | hc2
      · unfold isIdentTailCh
        apply decide_eq_true
        rw [digitChar_toNat]
        exact Or.inr (Or.inl (by omega))
      · cases hc2
    · rcases List.mem_append.mp hc with hc2 | hc2
      · exact ih _ c hc2
      · rcases List.mem_cons.mp hc2 with rfl | hc3
        · unfold isIdentTailCh
          apply decide_eq_true
          rw [digitChar_toNat]
          exact Or.inr (Or.inl (by omega))
        · cases hc3

theorem natChars_chars (n : Nat) : ∀ c ∈ natChars n, isIdentTailCh c = true :=
  fun c hc => digitsGo_chars (n + 1) n c hc

theorem identOk_of_parts (c : Char) (cs : List Char) (hc : isIdentHeadCh c = true)
    (hcs : ∀ d ∈ cs, isIdentTailCh d = true) : identOk (c :: cs) = true := by
  show (isIdentHeadCh c && cs.all isIdentTailCh) = true
  rw [hc, List.all_eq_true.mpr hcs]
  rfl

/-- Every name produced by the per-label sanitization (before uniquification)
is a non-empty `[a-z_][a-z0-9_]*` identifier. -/
theorem sanitizeLabel_identOk (pos : Nat) (label : List Char) :
    identOk (sanitizeLabel pos label) = true := by
  unfold sanitizeLabel
  cases hs2 : stripUnd (subW (lowerL (label.take 140))) with
  | nil =>
    simp only [hs2, if_pos]
    apply identOk_of_parts
    · decide
    · intro d hd
      rcases List.mem_append.mp hd with hd2 | hd2
      · fin_cases hd2 <;> decide
      · exact natChars_chars pos d hd2
  | cons c cs =>
    have htail : ∀ d ∈ c :: cs, isIdentTailCh d = true := by
      intro d hd
      rw [← hs2] at hd
      exact subW_lower_chars _ false d (stripUnd_subset _ d hd)
    have hctail : isIdentTailCh c = true := htail c (List.mem_cons_self _ _)
    simp only [hs2]
    by_cases hdig : isDigitCh c = true
    · rw [if_pos hdig]
      have hne : ('_' :: c :: cs) ≠ [] := by simp
      rw [if_neg hne]
      apply identOk_of_parts
      · decide
      · exact htail
    · rw [if_neg hdig]
      have hne : (c :: cs) ≠ [] := by simp
      rw [if_neg hne]
      apply identOk_of_parts
      · unfold isIdentTailCh at hctail
        unfold isDigitCh at hdig
        unfold isIdentHeadCh
        rw [decide_eq_true_eq] at hctail
        apply decide_eq_true
        rcases hctail with h | h | h
        · exact Or.inl h
        · exact absurd (decide_eq_true h) hdig
        · exact Or.inr h
      · exact fun d hd => htail d (List.mem_cons_of_mem _ hd)

theorem identOk_candidate (orig : List Char) (k : Nat) (h : identOk orig = true) :
    identOk (candidate orig k) = true := by
  cases orig with
  | nil => cases h
  | cons c cs =>
    unfold identOk at h
    rw [Bool.and_eq_true] at h
    unfold candidate
    rw [List.cons_append]
    apply identOk_of_parts c _ h.1
    intro d hd
    rcases List.mem_append.mp hd with hd2 | hd2
    · exact List.all_eq_true.mp h.2 d hd2
    · rcases List.mem_cons.mp hd2 with rfl | hd3
      · exact isIdentTailCh_underscore
      · exact natChars_chars k d hd3

theorem valL_append_digit (xs : List Char) (c : Char) :
    valL (xs ++ [c]) = 10 * valL xs + chVal c := by
  unfold valL
  rw [List.foldl_append]
  rfl

theorem valL_digitsGo : ∀ fuel n, n < 10 ^ fuel → valL (digitsGo fuel n) = n := by
  intro fuel
  induction fuel with
  | zero =>
    intro n hn
    have : n = 0 := by simpa using hn
    subst this
    rfl
  | succ f ih =>
    intro n hn
    unfold digitsGo
    split
    · unfold valL
      simp only [List.foldl_cons, List.foldl_nil]
      unfold chVal
      rw [digitChar_toNat]
      omega
    · rename_i hge
      rw [valL_append_digit]
      have hdiv : n / 10 < 10 ^ f := by
        rw [Nat.div_lt_iff_lt_mul (by omega)]
        rw [pow_succ] at hn
        exact hn
      rw [ih _ hdiv]
      unfold chVal
      rw [digitChar_toNat]
      omega

theorem valL_natChars (n : Nat) : valL (natChars n) = n := by
  apply valL_digitsGo
  calc n < 10 ^ n := Nat.lt_pow_self (by omega) n
  _ ≤ 10 ^ (n + 1) := Nat.pow_le_pow_right (by omega) (Nat.le_succ n)

theorem natChars_inj {m n : Nat} (h : natChars m = natChars n) : m = n := by
  have hm := valL_natChars m
  rw [h, valL_natChars n] at hm
  omega

theorem candidate_inj (orig : List Char) {j k : Nat}
    (h : candidate orig j = candidate orig k) : j = k := by
  unfold candidate at h
  have h2 := List.append_cancel_left h
  exact natChars_inj (List.cons.injEq .. ▸ h2).2

/-- Pigeonhole: among the candidates `orig_1 ... orig_(n+1)` at least one is
not in a `used` list of length `n`, so the `while` loop of the source always
terminates with an unused name within `used.length + 1` attempts. -/
theorem exists_unused (orig : List Char) (used : List (List Char)) :
    ∃ j, 1 ≤ j ∧ j ≤ used.length + 1 ∧ candidate orig j ∉ used := by
  by_contra hall
  push_neg at hall
  have hsub : ((List.range (used.length + 1)).map (fun i => candidate orig (i + 1))) ⊆ used := by
    intro x hx
    obtain ⟨i, hi, rfl⟩ := List.mem_map.mp hx
    exact hall (i + 1) (by omega) (by have := List.mem_range.mp hi; omega)
  have hnodup : ((List.range (used.length + 1)).map (fun i => candidate orig (i + 1))).Nodup := by
    refine List.Nodup.map ?_ (List.nodup_range _)
    intro a b hab
    have := candidate_inj orig hab
    omega
  have h1 : ((List.range (used.length + 1)).map
      (fun i => candidate orig (i + 1))).toFinset.card = used.length + 1 := by
    rw [List.toFinset_card_of_nodup hnodup]
    simp
  have h2 : ((List.range (used.length + 1)).map
      (fun i => candidate orig (i + 1))).toFinset ⊆ used.toFinset := by
    intro x hx
    exact List.mem_toFinset.mpr (hsub (List.mem_toFinset.mp hx))
  have h3 := Finset.card_le_card h2
  have h4 := List.toFinset_card_le used
  omega

theorem uniqGo_not_mem (orig : List Char) (used : List (List Char)) :
    ∀ fuel k, (∃ j, k ≤ j ∧ j < k + fuel ∧ candidate orig j ∉ used) →
      uniqGo orig used k fuel ∉ used := by
  intro fuel
  induction fuel with
  | zero =>
    intro k ⟨j, hj1, hj2, _⟩
    omega
  | succ f ih =>
    intro k ⟨j, hj1, hj2, hj3⟩
    show (if candidate orig k ∈ used then uniqGo orig used (k + 1) f else candidate orig k) ∉ used
    by_cases hk : candidate orig k ∈ used
    · rw [if_pos hk]
      have hjk : j ≠ k := fun he => hj3 (he ▸ hk)
      exact ih (k + 1) ⟨j, by omega, by omega, hj3⟩
    · rw [if_neg hk]
      exact hk

theorem uniqGo_shape (orig : List Char) (used : List (List Char)) :
    ∀ fuel k, uniqGo orig used k fuel = orig ∨
      ∃ j, uniqGo orig used k fuel = candidate orig j := by
  intro fuel
  induction fuel with
  | zero => intro k; exact Or.inl rfl
  | succ f ih =>
    intro k
    show (if candidate orig k ∈ used then uniqGo orig used (k + 1) f else candidate orig k) = orig ∨
      ∃ j, (if candidate orig k ∈ used then uniqGo orig used (k + 1) f else candidate orig k) =
        candidate orig j
    by_cases hk : candidate orig k ∈ used
    · rw [if_pos hk]
      exact ih (k + 1)
    · rw [if_neg hk]
      exact Or.inr ⟨k, rfl⟩

/-- The uniquified name is never one of the already-used names. -/
theorem uniquify_not_mem (orig : List Char) (used : List (List Char)) :
    uniquify orig used ∉ used := by
  unfold uniquify
  split
  · apply uniqGo_not_mem
    obtain ⟨j, h1, h2, h3⟩ := exists_unused orig used
    exact ⟨j, by omega, by omega, h3⟩
  · assumption

theorem uniquify_identOk (orig : List Char) (used : List (List Char))
    (h : identOk orig = true) : identOk (uniquify orig used) = true := by
  unfold uniquify
  split
  · rcases uniqGo_shape orig used (used.length + 1) 1 with he | ⟨j, he⟩
    · rw [he]; exact h
    · rw [he]; exact identOk_candidate orig j h
  · exact h

theorem fieldnamesGo_nodup_fresh : ∀ (ls : List (List Char)) (pos : Nat) (used : List (List Char)),
    (fieldnamesGo ls pos used).Nodup ∧ ∀ fdn ∈ fieldnamesGo ls pos used, fdn ∉ used := by
  intro ls
  induction ls with
  | nil => intro pos used; exact ⟨List.nodup_nil, fun fdn h => absurd h (List.not_mem_nil fdn)⟩
  | cons l ls ih =>
    intro pos used
    obtain ⟨hT, hfresh⟩ := ih (pos + 1) (uniquify (sanitizeLabel pos l) used :: used)
    constructor
    · refine List.Nodup.cons ?_ hT
      intro hmem
      exact hfresh _ hmem (List.mem_cons_self _ _)
    · intro fdn hmem
      rcases List.mem_cons.mp hmem with rfl | hmem2
      · exact uniquify_not_mem _ used
      · intro hused
        exact hfresh fdn hmem2 (List.mem_cons_of_mem _ hused)

theorem fieldnamesGo_identOk : ∀ (ls : List (List Char)) (pos : Nat) (used : List (List Char)),
    ∀ fdn ∈ fieldnamesGo ls pos used, identOk fdn = true := by
  intro ls
  induction ls with
  | nil => intro pos used fdn h; cases h
  | cons l ls ih =>
    intro pos used fdn hmem
    rcases List.mem_cons.mp hmem with rfl | hmem2
    · exact uniquify_identOk _ _ (sanitizeLabel_identOk pos l)
    · exact ih (pos + 1) _ fdn hmem2

theorem fieldnamesGo_length : ∀ (ls : List (List Char)) (pos : Nat) (used : List (List Char)),
    (fieldnamesGo ls pos used).length = ls.length := by
  intro ls
  induction ls with
  | nil => intro pos used; rfl
  | cons l ls ih =>
    intro pos used
    show (_ :: _).length = _
    rw [List.length_cons, ih]
    rfl

/-- C4: the sanitizing loop of `create_dynamic_doctype` is total and, for
every list of input labels, produces one fieldname per label, each non-empty
and matching `[a-z_][a-z0-9_]*`, and pairwise distinct (each name distinct
from every name previously added to the `used` set, collisions being
resolved by appending `_1`, `_2`, ... until unused). -/
theorem claim_C4_thm (labels : List String) :
    (doctypeFieldnames labels).length = labels.length ∧
    (doctypeFieldnames labels).Nodup ∧
    ∀ fdn ∈ doctypeFieldnames labels, fdn ≠ "" ∧ identOk fdn.toList = true := by
  unfold doctypeFieldnames
  refine ⟨?_, ?_, ?_⟩
  · rw [List.length_map, fieldnamesGo_length, List.length_map]
  · refine List.Nodup.map ?_ (fieldnamesGo_nodup_fresh (labels.map String.toList) 0 []).1
    intro a b hab
    injection hab
  · intro fdn hmem
    obtain ⟨l, hl, rfl⟩ := List.mem_map.mp hmem
    have hok := fieldnamesGo_identOk _ _ _ _ hl
    constructor
    · cases l with
      | nil => cases hok
      | cons c cs =>
        intro hcontra
        have : (String.mk (c :: cs)).toList = ("" : String).toList := by rw [hcontra]
        cases this
    · exact hok

theorem claim_C4_witness :
    (doctypeFieldnames ["2nd Quarter Sales", "Name", "name"]).Nodup ∧
    ("name_1" : String) ≠ "" ∧ identOk ("name_1" : String).toList = true := by
  have h := claim_C4_thm ["2nd Quarter Sales", "Name", "name"]
  exact ⟨h.2.1, h.2.2 "name_1" (by decide)⟩

theorem applyMask_nil (m : List Bool) : applyMask m [] = [] := by
  cases m <;> rfl

theorem applyMask_nil_mask : ∀ s : List Char, applyMask [] s = s := by
  intro s
  cases s <;> rfl

theorem applyMask_length : ∀ (m : List Bool) (s : List Char),
    (applyMask m s).length = s.length := by
  intro m
  induction m with
  | nil => intro s; cases s <;> rfl
  | cons b mb ih =>
    intro s
    cases s with
    | nil => rfl
    | cons c cs =>
      show ((if b then upperA c else c) :: applyMask mb cs).length = _
      rw [List.length_cons, ih]
      rfl

theorem lowerL_applyMask : ∀ (m : List Bool) (s : List Char),
    lowerL (applyMask m s) = lowerL s := by
  intro m
  induction m with
  | nil => intro s; cases s <;> rfl
  | cons b mb ih =>
    intro s
    cases s with
    | nil => rfl
    | cons c cs =>
      show lowerL ((if b then upperA c else c) :: applyMask mb cs) = _
      rw [lowerL_cons, lowerL_cons, ih]
      cases b
      · rfl
      · rw [if_pos rfl, lowerA_upperA]

theorem applyMask_replicate_false : ∀ (n : Nat) (s : List Char),
    applyMask (List.replicate n false) s = s := by
  intro n
  induction n with
  | zero => intro s; cases s <;> rfl
  | succ k ih =>
    intro s
    cases s with
    | nil => rfl
    | cons c cs =>
      show (if false then upperA c else c) :: applyMask (List.replicate k false) cs = _
      rw [if_neg (by simp), ih]

theorem applyMask_applyMask : ∀ (s : List Char) (m m' : List Bool),
    m.length = s.length → m'.length = s.length →
    applyMask m (applyMask m' s) =
      applyMask (List.zipWith (fun a b => a || b) m' m) s := by
  intro s
  induction s with
  | nil =>
    intro m m' _ _
    rw [applyMask_nil, applyMask_nil, applyMask_nil]
  | cons c cs ih =>
    intro m m' hm hm'
    cases m with
    | nil => rw [List.length_nil, List.length_cons] at hm; omega
    | cons b mb =>
      cases m' with
      | nil => rw [List.length_nil, List.length_cons] at hm'; omega
      | cons b' mb' =>
        rw [List.length_cons, List.length_cons] at hm hm'
        show (if b then upperA (if b' then upperA c else c) else (if b' then upperA c else c)) ::
            applyMask mb (applyMask mb' cs) =
          (if (b' || b) then upperA c else c) :: applyMask (List.zipWith _ mb' mb) cs
        rw [ih mb mb' (by omega) (by omega)]
        congr 1
        cases b <;> cases b' <;> simp [upperA_upperA]

theorem zipWith_or_self : ∀ (m : List Bool),
    List.zipWith (fun a b => a || b) m m = m := by
  intro m
  induction m with
  | nil => rfl
  | cons b mb ih => simp [ih]

theorem kwMatchAt_length_le (kw ls : List Char) (h : kwMatchAt kw ls = true) :
    kw.length ≤ ls.length := by
  unfold kwMatchAt at h
  rw [Bool.and_eq_true] at h
  exact ( List.isPrefixOf_iff_prefix.mp h.1).length_le

theorem maskGo_length (kw : List Char) : ∀ fuel b ls,
    (maskGo kw fuel b ls).length = ls.length := by
  intro fuel
  induction fuel with
  | zero => intro b ls; simp [maskGo]
  | succ f ih =>
    intro b ls
    cases ls with
    | nil => rfl
    | cons c cs =>
      simp only [maskGo]
      split
      · rename_i hm
        rw [Bool.and_eq_true] at hm
        have hle := kwMatchAt_length_le kw (c :: cs) hm.2
        rw [List.length_append, List.length_replicate, ih, List.length_drop]
        omega
      · rw [List.length_cons, ih, List.length_cons]

theorem bigMask_length (kws : List (List Char)) (n : Nat) (ls : List Char) :
    (bigMask kws n ls).length = ls.length := by
  induction kws with
  | nil => simp [bigMask]
  | cons kw rest ih =>
    show (List.zipWith _ (maskGo kw n false ls) (bigMask rest n ls)).length = _
    rw [List.length_zipWith, maskGo_length, ih]
    omega

theorem recase1_lower (kw s : List Char) : lowerL (recase1 kw s) = lowerL s :=
  lowerL_applyMask _ s

theorem recase1_length (kw s : List Char) : (recase1 kw s).length = s.length :=
  applyMask_length _ s

theorem recaseKeywords_lower : ∀ (kws : List (List Char)) (s : List Char),
    lowerL (recaseKeywords s kws) = lowerL s := by
  intro kws
  induction kws with
  | nil => intro s; rfl
  | cons kw rest ih =>
    intro s
    show lowerL (recaseKeywords (recase1 kw s) rest) = _
    rw [ih, recase1_lower]

theorem recaseKeywords_length : ∀ (kws : List (List Char)) (s : List Char),
    (recaseKeywords s kws).length = s.length := by
  intro kws
  induction kws with
  | nil => intro s; rfl
  | cons kw rest ih =>
    intro s
    show (recaseKeywords (recase1 kw s) rest).length = _
    rw [ih, recase1_length]

/-- The whole keyword re-casing pass is the application of a single mask
computed only from the lowered text. -/
theorem recaseKeywords_repr : ∀ (kws : List (List Char)) (s : List Char),
    recaseKeywords s kws = applyMask (bigMask kws (s.length + 1) (lowerL s)) s := by
  intro kws
  induction kws with
  | nil =>
    intro s
    show s = applyMask (List.replicate (lowerL s).length false) s
    rw [applyMask_replicate_false]
  | cons kw rest ih =>
    intro s
    show recaseKeywords (recase1 kw s) rest = _
    rw [ih (recase1 kw s), recase1_length, recase1_lower]
    have h1 : (maskGo kw (s.length + 1) false (lowerL s)).length = s.length := by
      rw [maskGo_length, lowerL_length]
    have h2 : (bigMask rest (s.length + 1) (lowerL s)).length = s.length := by
      rw [bigMask_length, lowerL_length]
    show applyMask (bigMask rest (s.length + 1) (lowerL s))
      (applyMask (maskGo kw (s.length + 1) false (lowerL s)) s) = _
    rw [applyMask_applyMask s _ _ h2 h1]
    rfl

theorem recaseKeywords_fix_of_masked (s t : List Char) (B : List Bool)
    (hl : lowerL t = lowerL s) (hlen : t.length = s.length)
    (hB : B = bigMask sqlKeywords (s.length + 1) (lowerL s))
    (ht : t = applyMask B s) :
    recaseKeywords t sqlKeywords = t := by
  have hBlen : B.length = s.length := by rw [hB, bigMask_length, lowerL_length]
  rw [recaseKeywords_repr, hl, hlen, ← hB, ht,
    applyMask_applyMask s B B hBlen hBlen, zipWith_or_self]

theorem isWsCh_of_not (c : Char) (hw : ¬ isWsCh c = true) : isWsCh c = false := by
  cases hx : isWsCh c
  · rfl
  · exact absurd hx hw

/-- The output of the whitespace collapser is in collapsed shape. -/
theorem cgo_spOk : ∀ s : List Char,
    (∀ g, spOk (cgo s false g) = true) ∧
    spGo false (cgo s true false) = true ∧
    spGo false (cgo s true true) = true := by
  intro s
  induction s with
  | nil => exact ⟨fun g => rfl, rfl, rfl⟩
  | cons c cs ih =>
    obtain ⟨ih1, ih2, ih3⟩ := ih
    by_cases hw : isWsCh c = true
    · refine ⟨fun g => ?_, ?_, ?_⟩
      · show spOk (cgo (c :: cs) false g) = true
        unfold cgo
        rw [if_pos hw]
        exact ih1 true
      · show spGo false (cgo (c :: cs) true false) = true
        unfold cgo
        rw [if_pos hw]
        exact ih3
      · show spGo false (cgo (c :: cs) true true) = true
        unfold cgo
        rw [if_pos hw]
        exact ih3
    · have hwf : isWsCh c = false := isWsCh_of_not c hw
      have hcsp : ¬ (c = ' ') := fun he => hw (by rw [he]; decide)
      refine ⟨fun g => ?_, ?_, ?_⟩
      · show spOk (cgo (c :: cs) false g) = true
        unfold cgo
        rw [if_neg hw, if_neg (by simp)]
        show (!isWsCh c && spGo false (cgo cs true false)) = true
        rw [hwf, ih2]
        rfl
      · show spGo false (cgo (c :: cs) true false) = true
        unfold cgo
        rw [if_neg hw, if_neg (by simp)]
        show (if c = ' ' then !false && spGo true (cgo cs true false)
          else !isWsCh c && spGo false (cgo cs true false)) = true
        rw [if_neg hcsp, hwf, ih2]
        rfl
      · show spGo false (cgo (c :: cs) true true) = true
        unfold cgo
        rw [if_neg hw, if_pos (by simp)]
        show (if (' ' : Char) = ' ' then !false && spGo true (c :: cgo cs true false)
          else !isWsCh ' ' && spGo false (c :: cgo cs true false)) = true
        rw [if_pos rfl]
        show (!false && (if c = ' ' then !true && spGo true (cgo cs true false)
          else !isWsCh c && spGo false (cgo cs true false))) = true
        rw [if_neg hcsp, hwf, ih2]
        rfl

/-- A string in collapsed shape is fixed by the collapser (inner states). -/
theorem cgo_fix_go : ∀ s : List Char,
    (spGo false s = true → cgo s true false = s) ∧
    (spGo true s = true → cgo s true true = ' ' :: s) := by
  intro s
  induction s with
  | nil =>
    constructor
    · intro _; rfl
    · intro h; cases h
  | cons c cs ih =>
    obtain ⟨ih1, ih2⟩ := ih
    constructor
    · intro h
      by_cases hcsp : c = ' '
      · rw [show spGo false (c :: cs) =
            (if c = ' ' then !false && spGo true cs else !isWsCh c && spGo false cs) from rfl,
          if_pos hcsp] at h
        rw [Bool.and_eq_true] at h
        unfold cgo
        rw [if_pos (by rw [hcsp]; decide), hcsp]
        exact ih2 h.2
      · rw [show spGo false (c :: cs) =
            (if c = ' ' then !false && spGo true cs else !isWsCh c && spGo false cs) from rfl,
          if_neg hcsp, Bool.and_eq_true] at h
        have hnw : isWsCh c = false := by
          cases hx : isWsCh c
          · rfl
          · rw [hx] at h; cases h.1
        unfold cgo
        rw [if_neg (by rw [hnw]; simp), if_neg (by simp)]
        rw [ih1 h.2]
    · intro h
      by_cases hcsp : c = ' '
      · rw [show spGo true (c :: cs) =
            (if c = ' ' then !true && spGo true cs else !isWsCh c && spGo false cs) from rfl,
          if_pos hcsp] at h
        cases h
      · rw [show spGo true (c :: cs) =
            (if c = ' ' then !true && spGo true cs else !isWsCh c && spGo false cs) from rfl,
          if_neg hcsp, Bool.and_eq_true] at h
        have hnw : isWsCh c = false := by
          cases hx : isWsCh c
          · rfl
          · rw [hx] at h; cases h.1
        unfold cgo
        rw [if_neg (by rw [hnw]; simp), if_pos (by simp)]
        rw [ih1 h.2]

/-- A string in collapsed shape is fixed by the collapser. -/
theorem spOk_fix (s : List Char) (h : spOk s = true) : cgo s false false = s := by
  cases s with
  | nil => rfl
  | cons c cs =>
    rw [show spOk (c :: cs) = (!isWsCh c && spGo false cs) from rfl, Bool.and_eq_true] at h
    have hnw : isWsCh c = false := by
      cases hx : isWsCh c
      · rfl
      · rw [hx] at h; cases h.1
    unfold cgo
    rw [if_neg (by rw [hnw]; simp), if_neg (by simp)]
    rw [(cgo_fix_go cs).1 h.2]

/-- Upper-casing under a mask does not change the collapsed shape. -/
theorem spGo_applyMask : ∀ (s : List Char) (m : List Bool) (b : Bool),
    spGo b (applyMask m s) = spGo b s := by
  intro s
  induction s with
  | nil => intro m b; rw [applyMask_nil]
  | cons c cs ih =>
    intro m b
    cases m with
    | nil => rfl
    | cons bm ms =>
      show spGo b ((if bm then upperA c else c) :: applyMask ms cs) = _
      cases bm
      · rw [if_neg (by simp)]
        show (if c = ' ' then !b && spGo true (applyMask ms cs)
            else !isWsCh c && spGo false (applyMask ms cs)) =
          (if c = ' ' then !b && spGo true cs else !isWsCh c && spGo false cs)
        by_cases hc : c = ' '
        · rw [if_pos hc, if_pos hc, ih]
        · rw [if_neg hc, if_neg hc, ih]
      · rw [if_pos rfl]
        show (if upperA c = ' ' then !b && spGo true (applyMask ms cs)
            else !isWsCh (upperA c) && spGo false (applyMask ms cs)) =
          (if c = ' ' then !b && spGo true cs else !isWsCh c && spGo false cs)
        by_cases hc : c = ' '
        · rw [if_pos ((upperA_eq_iff_small c ' ' (by decide)).mpr hc), if_pos hc, ih]
        · rw [if_neg (fun hx => hc ((upperA_eq_iff_small c ' ' (by decide)).mp hx)),
            if_neg hc, isWs_upperA, ih]

theorem spOk_applyMask (m : List Bool) (s : List Char) :
    spOk (applyMask m s) = spOk s := by
  cases s with
  | nil => rw [applyMask_nil]
  | cons c cs =>
    cases m with
    | nil => rfl
    | cons bm ms =>
      show spOk ((if bm then upperA c else c) :: applyMask ms cs) = _
      cases bm
      · rw [if_neg (by simp)]
        show (!isWsCh c && spGo false (applyMask ms cs)) = (!isWsCh c && spGo false cs)
        rw [spGo_applyMask]
      · rw [if_pos rfl]
        show (!isWsCh (upperA c) && spGo false (applyMask ms cs)) =
          (!isWsCh c && spGo false cs)
        rw [isWs_upperA, spGo_applyMask]

theorem semiSlice_of_no_semi : ∀ s : List Char, ';' ∉ s → semiSlice s = s := by
  intro s
  induction s with
  | nil => intro _; rfl
  | cons c cs ih =>
    intro h
    have hcne : c ≠ ';' := by
      intro he
      exact h (by rw [he]; exact List.mem_cons_self _ _)
    unfold semiSlice
    rw [if_neg hcne]
    rw [ih (fun hm => h (List.mem_cons_of_mem c hm))]

theorem semiSlice_of_semi : ∀ s : List Char, ';' ∈ s →
    ∃ w, ';' ∉ w ∧ semiSlice s = w ++ [';'] := by
  intro s
  induction s with
  | nil => intro h; cases h
  | cons c cs ih =>
    intro h
    by_cases hc : c = ';'
    · refine ⟨[], by simp, ?_⟩
      unfold semiSlice
      rw [if_pos hc, hc]
      rfl
    · have hcs : ';' ∈ cs := by
        rcases List.mem_cons.mp h with he | hm
        · exact absurd he.symm hc
        · exact hm
      obtain ⟨w, hw1, hw2⟩ := ih hcs
      refine ⟨c :: w, ?_, ?_⟩
      · intro hm
        rcases List.mem_cons.mp hm with he | hm2
        · exact hc he.symm
        · exact hw1 hm2
      · unfold semiSlice
        rw [if_neg hc, hw2]
        rfl

theorem cgo_chars : ∀ (s : List Char) (b1 b2 : Bool) (c : Char),
    c ∈ cgo s b1 b2 → c = ' ' ∨ c ∈ s := by
  intro s
  induction s with
  | nil => intro b1 b2 c hc; cases hc
  | cons d ds ih =>
    intro b1 b2 c hc
    unfold cgo at hc
    by_cases hw : isWsCh d = true
    · rw [if_pos hw] at hc
      rcases ih b1 true c hc with h | h
      · exact Or.inl h
      · exact Or.inr (List.mem_cons_of_mem _ h)
    · rw [if_neg hw] at hc
      split at hc
      · rcases List.mem_cons.mp hc with rfl | hc2
        · exact Or.inl rfl
        · rcases List.mem_cons.mp hc2 with rfl | hc3
          · exact Or.inr (List.mem_cons_self _ _)
          · rcases ih true false c hc3 with h | h
            · exact Or.inl h
            · exact Or.inr (List.mem_cons_of_mem _ h)
      · rcases List.mem_cons.mp hc with rfl | hc2
        · exact Or.inr (List.mem_cons_self _ _)
        · rcases ih true false c hc2 with h | h
          · exact Or.inl h
          · exact Or.inr (List.mem_cons_of_mem _ h)

theorem cgo_semi_tail : ∀ (w : List Char) (b1 b2 : Bool), ';' ∉ w →
    ∃ v, cgo (w ++ [';']) b1 b2 = v ++ [';'] ∧ ';' ∉ v := by
  intro w
  induction w with
  | nil =>
    intro b1 b2 _
    rw [List.nil_append]
    unfold cgo
    rw [if_neg (by decide)]
    by_cases hb : (b1 && b2) = true
    · rw [if_pos hb]
      exact ⟨[' '], rfl, by decide⟩
    · rw [if_neg hb]
      exact ⟨[], rfl, by decide⟩
  | cons d ds ih =>
    intro b1 b2 hns
    have hd : d ≠ ';' := fun he => hns (he ▸ List.mem_cons_self d ds)
    have hds : ';' ∉ ds := fun hm => hns (List.mem_cons_of_mem d hm)
    rw [List.cons_append]
    unfold cgo
    by_cases hw : isWsCh d = true
    · rw [if_pos hw]
      exact ih b1 true hds
    · rw [if_neg hw]
      obtain ⟨v, hv1, hv2⟩ := ih true false hds
      split
      · refine ⟨' ' :: d :: v, ?_, ?_⟩
        · rw [hv1]; rfl
        · intro hm
          rcases List.mem_cons.mp hm with he | hm2
          · cases he
          · rcases List.mem_cons.mp hm2 with he | hm3
            · exact hd he.symm
            · exact hv2 hm3
      · refine ⟨d :: v, ?_, ?_⟩
        · rw [hv1]; rfl
        · intro hm
          rcases List.mem_cons.mp hm with he | hm2
          · exact hd he.symm
          · exact hv2 hm2

theorem applyMask_chars : ∀ (m : List Bool) (s : List Char) (c : Char),
    c ∈ applyMask m s → ∃ d ∈ s, c = d ∨ c = upperA d := by
  intro m
  induction m with
  | nil =>
    intro s c hc
    cases s with
    | nil => cases hc
    | cons d ds => exact ⟨c, hc, Or.inl rfl⟩
  | cons b mb ih =>
    intro s c hc
    cases s with
    | nil => rw [applyMask_nil] at hc; cases hc
    | cons d ds =>
      rw [show applyMask (b :: mb) (d :: ds) =
        (if b then upperA d else d) :: applyMask mb ds from rfl] at hc
      rcases List.mem_cons.mp hc with rfl | hc2
      · cases b
        · exact ⟨d, List.mem_cons_self _ _, Or.inl (if_neg (by simp))⟩
        · exact ⟨d, List.mem_cons_self _ _, Or.inr (if_pos rfl)⟩
      · obtain ⟨e, he1, he2⟩ := ih ds c hc2
        exact ⟨e, List.mem_cons_of_mem _ he1, he2⟩

theorem applyMask_no_semi (m : List Bool) (s : List Char) (h : ';' ∉ s) :
    ';' ∉ applyMask m s := by
  intro hc
  obtain ⟨d, hd1, hd2⟩ := applyMask_chars m s ';' hc
  rcases hd2 with he | he
  · exact h (he ▸ hd1)
  · exact h (((upperA_eq_iff_small d ';' (by decide)).mp he.symm) ▸ hd1)

theorem applyMask_append_split : ∀ (m : List Bool) (xs ys : List Char),
    applyMask m (xs ++ ys) =
      applyMask (m.take xs.length) xs ++ applyMask (m.drop xs.length) ys := by
  intro m
  induction m with
  | nil =>
    intro xs ys
    rw [List.take_nil, List.drop_nil, applyMask_nil_mask, applyMask_nil_mask,
      applyMask_nil_mask]
  | cons b mb ih =>
    intro xs ys
    cases xs with
    | nil => rfl
    | cons x xs2 =>
      rw [List.cons_append]
      show (if b then upperA x else x) :: applyMask mb (xs2 ++ ys) = _
      rw [ih xs2 ys]
      rfl

theorem applyMask_semi_tail (m : List Bool) (v : List Char) (h : ';' ∉ v) :
    ∃ u, applyMask m (v ++ [';']) = u ++ [';'] ∧ ';' ∉ u := by
  rw [applyMask_append_split]
  refine ⟨applyMask (m.take v.length) v, ?_, applyMask_no_semi _ v h⟩
  congr 1
  cases hm : m.drop v.length with
  | nil => rfl
  | cons b mb =>
    show (if b then upperA ';' else ';') :: applyMask mb [] = [';']
    rw [applyMask_nil]
    cases b
    · rfl
    · rw [if_pos rfl]
      decide

theorem semiSlice_semi_tail : ∀ u : List Char, ';' ∉ u →
    semiSlice (u ++ [';']) = u ++ [';'] := by
  intro u
  induction u with
  | nil => intro _; rfl
  | cons c cs ih =>
    intro h
    have hc : c ≠ ';' := fun he => h (he ▸ List.mem_cons_self c cs)
    rw [List.cons_append]
    unfold semiSlice
    rw [if_neg hc, ih (fun hm => h (List.mem_cons_of_mem c hm))]

theorem findSub_spec : ∀ (l : List Char) (pat : List Char) (i : Nat),
    findSub pat l = some i → pat.isPrefixOf (l.drop i) = true := by
  intro l
  induction l with
  | nil =>
    intro pat i h
    unfold findSub at h
    split at h
    · rename_i hp
      obtain rfl := Option.some_inj.mp h
      rw [hp]
      rfl
    · cases h
  | cons c cs ih =>
    intro pat i h
    unfold findSub at h
    split at h
    · rename_i hp
      obtain rfl := Option.some_inj.mp h
      exact hp
    · cases hfs : findSub pat cs with
      | none => rw [hfs] at h; cases h
      | some j =>
        rw [hfs] at h
        have h2 : some (j + 1) = some i := h
        obtain rfl := Option.some_inj.mp h2
        rw [List.drop_succ_cons]
        exact ih pat j hfs

theorem findSub_at_front (l pat : List Char) (h : pat.isPrefixOf l = true) :
    findSub pat l = some 0 := by
  cases l with
  | nil =>
    unfold findSub
    cases pat with
    | nil => rfl
    | cons p ps => cases h
  | cons c cs =>
    unfold findSub
    rw [if_pos h]

theorem semiSlice_cons (c : Char) (cs : List Char) :
    semiSlice (c :: cs) = if c = ';' then [c] else c :: semiSlice cs := rfl

theorem cgo_cons (c : Char) (cs : List Char) (b1 b2 : Bool) :
    cgo (c :: cs) b1 b2 =
      if isWsCh c = true then cgo cs b1 true
      else if (b1 && b2) = true then ' ' :: c :: cgo cs true false
      else c :: cgo cs true false := rfl

theorem lowerL_semiSlice : ∀ s : List Char, lowerL (semiSlice s) = semiSlice (lowerL s) := by
  intro s
  induction s with
  | nil => rfl
  | cons c cs ih =>
    rw [lowerL_cons, semiSlice_cons, semiSlice_cons]
    by_cases hc : c = ';'
    · rw [if_pos hc, if_pos ((lowerA_eq_iff_small c ';' (by decide)).mpr hc)]
      rfl
    · rw [if_neg hc, if_neg (fun hx => hc ((lowerA_eq_iff_small c ';' (by decide)).mp hx)),
        lowerL_cons, ih]

theorem lowerL_cgo : ∀ (s : List Char) (b1 b2 : Bool),
    lowerL (cgo s b1 b2) = cgo (lowerL s) b1 b2 := by
  intro s
  induction s with
  | nil => intro b1 b2; rfl
  | cons c cs ih =>
    intro b1 b2
    rw [lowerL_cons, cgo_cons, cgo_cons]
    by_cases hw : isWsCh c = true
    · rw [if_pos hw, if_pos (show isWsCh (lowerA c) = true by rw [isWs_lowerA]; exact hw)]
      exact ih b1 true
    · have hw2 : ¬ (isWsCh (lowerA c) = true) := by rw [isWs_lowerA]; exact hw
      rw [if_neg hw, if_neg hw2]
      by_cases hb : (b1 && b2) = true
      · rw [if_pos hb, if_pos hb,
          show lowerL (' ' :: c :: cgo cs true false) =
            ' ' :: lowerA c :: lowerL (cgo cs true false) from rfl, ih]
      · rw [if_neg hb, if_neg hb, lowerL_cons, ih]

theorem cgo_word_front : ∀ (w x : List Char) (g : Bool),
    (∀ c ∈ w, isWsCh c = false) →
    cgo (w ++ x) true false = w ++ cgo x true false ∧
    (w ≠ [] → cgo (w ++ x) false g = w ++ cgo x true false) := by
  intro w
  induction w with
  | nil =>
    intro x g _
    exact ⟨rfl, fun h => absurd rfl h⟩
  | cons d ds ih =>
    intro x g hnw
    have hd : isWsCh d = false := hnw d (List.mem_cons_self _ _)
    have hds : ∀ c ∈ ds, isWsCh c = false := fun c hc => hnw c (List.mem_cons_of_mem _ hc)
    constructor
    · rw [List.cons_append, cgo_cons]
      rw [if_neg (by rw [hd]; simp), if_neg (by simp)]
      rw [(ih x g hds).1]
      rfl
    · intro _
      rw [List.cons_append, cgo_cons]
      rw [if_neg (by rw [hd]; simp), if_neg (by simp)]
      rw [(ih x g hds).1]
      rfl

theorem isPrefixOf_semiSlice (pat : List Char) : ∀ (l : List Char),
    pat.isPrefixOf l = true → ';' ∉ pat → pat.isPrefixOf (semiSlice l) = true := by
  induction pat with
  | nil =>
    intro l _ _
    cases semiSlice l <;> rfl
  | cons p ps ih =>
    intro l hp hs
    cases l with
    | nil => cases hp
    | cons c cs =>
      rw [List.isPrefixOf_cons₂] at hp
      rw [Bool.and_eq_true] at hp
      have hpc : p = c := by
        have := hp.1
        rwa [beq_iff_eq] at this
      have hcn : ¬ (c = ';') := by
        intro he
        exact hs (by rw [hpc, he]; exact List.mem_cons_self _ _)
      rw [semiSlice_cons, if_neg hcn, List.isPrefixOf_cons₂, Bool.and_eq_true]
      exact ⟨hp.1, ih cs hp.2 (fun hm => hs (List.mem_cons_of_mem _ hm))⟩

/-- After `refine_sql_query` found `select`, the refined output still starts
(case-insensitively) with `select`. -/
theorem refine_slice_select_front (s : List Char) (i : Nat)
    (hf : findSub ("select".toList) (lowerL s) = some i) :
    ("select".toList).isPrefixOf
      (lowerL (recaseKeywords (collapseWs (semiSlice (s.drop i))) sqlKeywords)) = true := by
  have h1 : ("select".toList).isPrefixOf ((lowerL s).drop i) = true := findSub_spec _ _ _ hf
  rw [← lowerL_drop] at h1
  have h2 : ("select".toList).isPrefixOf (semiSlice (lowerL (s.drop i))) = true :=
    isPrefixOf_semiSlice _ _ h1 (by decide)
  rw [← lowerL_semiSlice] at h2
  obtain ⟨t, ht⟩ := List.isPrefixOf_iff_prefix.mp h2
  have h3 : lowerL (collapseWs (semiSlice (s.drop i))) =
      "select".toList ++ cgo t true false := by
    show lowerL (cgo (semiSlice (s.drop i)) false false) = _
    rw [lowerL_cgo, ← ht]
    exact (cgo_word_front ("select".toList) t false (by decide)).2 (by decide)
  rw [recaseKeywords_lower, h3]
  exact List.isPrefixOf_iff_prefix.mpr ⟨cgo t true false, rfl⟩

/-- The output of `refine_sql_query` (when `select` was found) is a fixed
point of `refine_sql_query`. -/
theorem refine_fix (s : List Char) (i : Nat)
    (hf : findSub ("select".toList) (lowerL s) = some i) :
    refineL (recaseKeywords (collapseWs (semiSlice (s.drop i))) sqlKeywords) =
      recaseKeywords (collapseWs (semiSlice (s.drop i))) sqlKeywords := by
  have hpre := refine_slice_select_front s i hf
  have hf0 := findSub_at_front _ _ hpre
  have hrepr := recaseKeywords_repr sqlKeywords (collapseWs (semiSlice (s.drop i)))
  have hlen := recaseKeywords_length sqlKeywords (collapseWs (semiSlice (s.drop i)))
  have hlow := recaseKeywords_lower sqlKeywords (collapseWs (semiSlice (s.drop i)))
  have hsemifix : semiSlice (recaseKeywords (collapseWs (semiSlice (s.drop i))) sqlKeywords) =
      recaseKeywords (collapseWs (semiSlice (s.drop i))) sqlKeywords := by
    by_cases hsemi : ';' ∈ s.drop i
    · obtain ⟨w, hw1, hw2⟩ := semiSlice_of_semi _ hsemi
      obtain ⟨v, hv1, hv2⟩ := cgo_semi_tail w false false hw1
      have hy : collapseWs (semiSlice (s.drop i)) = v ++ [';'] := by
        show cgo (semiSlice (s.drop i)) false false = _
        rw [hw2]
        exact hv1
      obtain ⟨u, hu1, hu2⟩ := applyMask_semi_tail
        (bigMask sqlKeywords ((collapseWs (semiSlice (s.drop i))).length + 1)
          (lowerL (collapseWs (semiSlice (s.drop i))))) v hv2
      rw [hrepr]
      rw [hy] at hu1 ⊢
      rw [hu1]
      exact semiSlice_semi_tail u hu2
    · have hz : ';' ∉ semiSlice (s.drop i) := by
        rw [semiSlice_of_no_semi _ hsemi]
        exact hsemi
      have hy : ';' ∉ collapseWs (semiSlice (s.drop i)) := by
        intro hm
        rcases cgo_chars _ false false ';' hm with he | hmem
        · exact absurd he (by decide)
        · exact hz hmem
      have hqn : ';' ∉ recaseKeywords (collapseWs (semiSlice (s.drop i))) sqlKeywords := by
        rw [hrepr]
        exact applyMask_no_semi _ _ hy
      exact semiSlice_of_no_semi _ hqn
  have hcollfix : collapseWs (recaseKeywords (collapseWs (semiSlice (s.drop i))) sqlKeywords) =
      recaseKeywords (collapseWs (semiSlice (s.drop i))) sqlKeywords := by
    apply spOk_fix
    rw [hrepr, spOk_applyMask]
    exact (cgo_spOk (semiSlice (s.drop i))).1 false
  have hrecfix : recaseKeywords
      (recaseKeywords (collapseWs (semiSlice (s.drop i))) sqlKeywords) sqlKeywords =
      recaseKeywords (collapseWs (semiSlice (s.drop i))) sqlKeywords :=
    recaseKeywords_fix_of_masked (collapseWs (semiSlice (s.drop i))) _ _ hlow hlen rfl hrepr
  have hstep : refineL (recaseKeywords (collapseWs (semiSlice (s.drop i))) sqlKeywords) =
      recaseKeywords (collapseWs (semiSlice
        ((recaseKeywords (collapseWs (semiSlice (s.drop i))) sqlKeywords).drop 0)))
        sqlKeywords := by
    unfold refineL
    simp only [hf0]
  rw [hstep, List.drop_zero, hsemifix, hcollfix, hrecfix]

/-- `refine_sql_query` is idempotent. -/
theorem refineL_idem (s : List Char) : refineL (refineL s) = refineL s := by
  cases hf : findSub ("select".toList) (lowerL s) with
  | none =>
    have h0 : refineL s = s := by
      unfold refineL
      rw [hf]
    rw [h0]
    exact h0
  | some i =>
    have h0 : refineL s = recaseKeywords (collapseWs (semiSlice (s.drop i))) sqlKeywords := by
      unfold refineL
      simp only [hf]
    rw [h0]
    exact refine_fix s i hf

/-- `analyze_sql_query` depends on its input only through `refine_sql_query`. -/
theorem analyze_congr (a b : List Char) (h : refineL a = refineL b) :
    analyze_sql_queryL a = analyze_sql_queryL b := by
  unfold analyze_sql_queryL
  rw [h]

/-- When the result of `classify` carries a `sql_query`, it is exactly the
refined input. -/
theorem analyze_sql_query_sql (s : String) (r : ChartSuggestion) (q : String)
    (h : analyze_sql_query s = some r) (hq : r.sql_query = some q) :
    q.toList = refineL s.toList := by
  unfold analyze_sql_query analyze_sql_queryL at h
  cases hsel : selectSearch (refineL s.toList) with
  | none =>
    simp only [hsel] at h
    obtain rfl := Option.some_inj.mp h
    cases hq
  | some proj =>
    simp only [hsel] at h
    split at h
    · split at h
      · split at h
        · cases h
        · obtain rfl := Option.some_inj.mp h.symm
          have h2 := Option.some_inj.mp hq
          rw [← h2] <;> rfl
      · split at h
        · cases h
        · obtain rfl := Option.some_inj.mp h.symm
          have h2 := Option.some_inj.mp hq
          rw [← h2] <;> rfl
    · split at h
      · obtain rfl := Option.some_inj.mp h.symm
        have h2 := Option.some_inj.mp hq
        rw [← h2] <;> rfl
      · split at h
        · cases h
        · obtain rfl := Option.some_inj.mp h.symm
          have h2 := Option.some_inj.mp hq
          rw [← h2] <;> rfl

/-- C6: `classify` is idempotent through its normalization: whenever it
returns a result carrying a `sql_query`, running it again on that
`sql_query` returns the identical result (same chart_type, x_axis, y_axis,
sql_query). -/
theorem claim_C6_thm (s : String) (r : ChartSuggestion) (q : String)
    (h : analyze_sql_query s = some r) (hq : r.sql_query = some q) :
    analyze_sql_query q = some r := by
  have hql : q.toList = refineL s.toList := analyze_sql_query_sql s r q h hq
  unfold analyze_sql_query at h ⊢
  rw [analyze_congr q.toList s.toList (by rw [hql, refineL_idem])]
  exact h

theorem claim_C6_witness :
    analyze_sql_query "SELECT a, b FROM t;" =
      some ⟨"scatter", "a", "", some "SELECT a, b FROM t;"⟩ :=
  claim_C6_thm "select a, b from t;" ⟨"scatter", "a", "", some "SELECT a, b FROM t;"⟩
    "SELECT a, b FROM t;" (by decide) (by decide)
